import Mathlib

/-!
Verification of the nexo-codex virtual-file-system core (packages/vfs) against
its natural-language specification.

Modelling conventions, shared by every definition below:

* File contents are represented by their list of lines, i.e. the image of the
  JavaScript expression content.split("\n").  Joining with "\n" is injective
  on such lists, so string equality of contents corresponds to list equality
  of their line lists.  The empty string splits to [""], so the model of the
  empty content is [""] (a single empty line), never [].
* JavaScript Array.prototype.slice / splice are modelled by jsSlice / jsSplice
  below, including the index clamping JavaScript performs for out-of-range
  and negative indices.
* Mutation of caller-supplied state (the setFileContent accessor, the patch
  status field, the history stacks) is modelled by returning the new state:
  applyPatch returns the ordered list of setFileContent calls it performs.
* new Date() timestamps are injected as a Nat parameter (now); random ids are
  irrelevant to every claim and are kept as the recorded id fields.
* JavaScript Map iteration order is key-insertion order; it is modelled by
  association lists built in first-insertion order.  JavaScript stable sort
  (Array.prototype.sort) is modelled by a stable insertion sort on the same
  comparator.
-/

namespace NexoVfs

/-- Slice helper: the index clamping of JavaScript Array.prototype.slice and
splice (negative indices count from the end, results are clamped to
[0, length]). -/
def jsIndex (len : Nat) (i : Int) : Nat :=
  if i < 0 then ((len : Int) + i).toNat else min i.toNat len

/-- Model of JavaScript lines.slice(s, e). -/
def jsSlice {α : Type} (l : List α) (s e : Int) : List α :=
  ((l.drop (jsIndex l.length s)).take (jsIndex l.length e - jsIndex l.length s))

/-- Model of JavaScript lines.splice(start, deleteCount, ...items) (the
resulting array; splice's return value is unused by the source). -/
def jsSplice {α : Type} (l : List α) (start deleteCount : Int) (items : List α) : List α :=
  let s := jsIndex l.length start
  let dc := min deleteCount.toNat (l.length - s)
  l.take s ++ items ++ l.drop (s + dc)

/-- Patch operation kinds (packages/types/src/patch.ts, PatchOperationType). -/
inductive OpType where
  | insert
  | delete
  | replace
  | move
deriving DecidableEq, Repr

/-- Patch status (packages/types/src/patch.ts, PatchStatus). -/
inductive PatchStatus where
  | pending
  | applied
  | reverted
  | failed
  | conflict
deriving DecidableEq, Repr

/-- One atomic patch operation (packages/types/src/patch.ts).  Content fields
hold line lists per the modelling convention; the metadata fields that no
embedded function reads (description, source, createdAt, character offsets)
are omitted. -/
structure PatchOperation where
  id : String
  type : OpType
  filePath : String
  startLine : Option Nat
  endLine : Option Nat
  oldContent : List String
  newContent : List String
deriving DecidableEq, Repr

/-- A patch: a named ordered group of operations (packages/types/src/patch.ts).
Metadata unused by the embedded functions is omitted. -/
structure Patch where
  name : String
  operations : List PatchOperation
  status : PatchStatus
deriving DecidableEq, Repr

/-- Patch application error kinds (packages/types/src/patch.ts, PatchError). -/
inductive PatchErrorType where
  | contentMismatch
  | lineOutOfRange
  | fileNotFound
  | conflictErr
deriving DecidableEq, Repr

/-- A patch application error (packages/types/src/patch.ts).  The human
readable message string is omitted; expected/actual carry line lists. -/
structure PatchError where
  operationId : String
  type : PatchErrorType
  expected : Option (List String)
  actual : Option (List String)
deriving DecidableEq, Repr

/-- Result of applying one operation (patch-utils.ts, applyOperation's return
shape {success, content, error?}). -/
structure OpResult where
  success : Bool
  content : List String
  error : Option PatchError
deriving DecidableEq, Repr

/-- Shared body of the delete / replace cases of applyOperation
(patch-utils.ts:397-446): validate the declared range's current text against
the recorded old text, then splice items in its place.  delete passes no
items, replace passes the new content's lines. -/
def applyEdit (lines : List String) (operation : PatchOperation) (items : List String) :
    OpResult :=
  let startI : Int := (operation.startLine.getD 1 : Int) - 1
  let endI : Int := (operation.endLine.getD (operation.startLine.getD 1) : Int)
  let deleteCount : Int := endI - startI
  let actualContent := jsSlice lines startI endI
  if actualContent = operation.oldContent then
    { success := true, content := jsSplice lines startI deleteCount items, error := none }
  else
    { success := false, content := lines,
      error := some { operationId := operation.id, type := .contentMismatch,
                      expected := some operation.oldContent, actual := some actualContent } }

/-- Model of applyOperation (patch-utils.ts:382-467).  insert splices the new
lines at startLine-1 (defaulting past the end); delete and replace validate
then splice; move is applied as a replace (patch-utils.ts:448-452). -/
def applyOperation (content : List String) (operation : PatchOperation) : OpResult :=
  match operation.type with
  | .insert =>
      let insertAt : Int := (operation.startLine.getD (content.length + 1) : Int) - 1
      { success := true, content := jsSplice content insertAt 0 operation.newContent,
        error := none }
  | .delete => applyEdit content operation []
  | .replace => applyEdit content operation operation.newContent
  | .move => applyEdit content operation operation.newContent

/-- Sort key used by applyPatch's descending sort: a.startLine ?? 0
(patch-utils.ts:512-516). -/
def opKey (op : PatchOperation) : Int :=
  (op.startLine.getD 0 : Int)

/-- Stable descending insertion of an operation (ties keep the earlier
element first, as JavaScript's stable Array.prototype.sort does). -/
def orderedInsertDesc (a : PatchOperation) : List PatchOperation → List PatchOperation
  | [] => [a]
  | b :: l => if opKey b ≤ opKey a then a :: b :: l else b :: orderedInsertDesc a l

/-- Model of [...operations].sort((a, b) => (b.startLine ?? 0) - (a.startLine ?? 0))
(patch-utils.ts:512-516): a stable sort by descending startLine. -/
def sortOpsDesc : List PatchOperation → List PatchOperation
  | [] => []
  | a :: l => orderedInsertDesc a (sortOpsDesc l)

/-- Apply a list of operations (already ordered) to a content, threading the
content on success and collecting errors on failure, exactly as the per-file
loop of applyPatch does (patch-utils.ts:519-526). -/
def applyOpsFold (ops : List PatchOperation) (content : List String) :
    List String × List PatchError :=
  ops.foldl
    (fun acc op =>
      let r := applyOperation acc.1 op
      if r.success then (r.content, acc.2) else (acc.1, acc.2 ++ r.error.toList))
    (content, [])

/-- The single-file body of applyPatch: sort the file's operations by
descending start line, then apply them in order (patch-utils.ts:511-526). -/
def applyFileOps (content : List String) (ops : List PatchOperation) :
    List String × List PatchError :=
  applyOpsFold (sortOpsDesc ops) content

/-- Append an operation to its file's group, creating the group at the end on
first occurrence — the behaviour of the operationsByFile Map
(patch-utils.ts:482-488) under JavaScript's insertion-ordered Map iteration. -/
def addToGroups (groups : List (String × List PatchOperation)) (op : PatchOperation) :
    List (String × List PatchOperation) :=
  match groups with
  | [] => [(op.filePath, [op])]
  | (p, ops) :: rest =>
      if p = op.filePath then (p, ops ++ [op]) :: rest
      else (p, ops) :: addToGroups rest op

/-- Group operations by file path in first-insertion order
(patch-utils.ts:482-488). -/
def groupByFile (ops : List PatchOperation) : List (String × List PatchOperation) :=
  ops.foldl addToGroups []

/-- A file store as seen through the getFileContent accessor: path to content
lines, none when the file is absent. -/
def Store : Type := String → Option (List String)

/-- Accumulated per-file results of applyPatch's main loop: the fileContents
map, the affectedFiles set and the errors array (patch-utils.ts:477-530),
each in processing order. -/
structure ApplyAccum where
  fileContents : List (String × List String)
  affectedFiles : List String
  errors : List PatchError
deriving DecidableEq, Repr

/-- The per-file loop of applyPatch (patch-utils.ts:491-530): for each file
group, read the content (an absent file is treated as empty content when all
its operations are inserts, and yields file-not-found errors otherwise),
apply the sorted operations, and record the resulting content. -/
def processGroups (get : Store) : List (String × List PatchOperation) → ApplyAccum
  | [] => { fileContents := [], affectedFiles := [], errors := [] }
  | (filePath, operations) :: rest =>
      let acc := processGroups get rest
      match get filePath with
      | none =>
          if operations.all (fun op => op.type = OpType.insert) then
            let r := applyFileOps [""] operations
            { fileContents := (filePath, r.1) :: acc.fileContents,
              affectedFiles := filePath :: acc.affectedFiles,
              errors := r.2 ++ acc.errors }
          else
            { fileContents := acc.fileContents,
              affectedFiles := acc.affectedFiles,
              errors := (operations.map (fun op =>
                { operationId := op.id, type := PatchErrorType.fileNotFound,
                  expected := none, actual := none })) ++ acc.errors }
      | some content =>
          let r := applyFileOps content operations
          { fileContents := (filePath, r.1) :: acc.fileContents,
            affectedFiles := filePath :: acc.affectedFiles,
            errors := r.2 ++ acc.errors }

/-- Result of applying a whole patch (patch-utils.ts, PatchResult, plus the
observable effects: the list of setFileContent calls performed and the
status/appliedAt fields written into the patch). -/
structure PatchResult where
  success : Bool
  statusAfter : PatchStatus
  appliedAt : Option Nat
  affectedFiles : List String
  writes : List (String × List String)
  errors : List PatchError
deriving DecidableEq, Repr

/-- Model of applyPatch (patch-utils.ts:472-557): group operations by file,
apply each file's operations in descending start-line order, and only if no
error occurred anywhere perform all setFileContent writes and mark the patch
applied; otherwise perform no write and mark it failed. -/
def applyPatch (patch : Patch) (get : Store) (now : Nat) : PatchResult :=
  let acc := processGroups get (groupByFile patch.operations)
  if acc.errors = [] then
    { success := true, statusAfter := .applied, appliedAt := some now,
      affectedFiles := acc.affectedFiles, writes := acc.fileContents, errors := [] }
  else
    { success := false, statusAfter := .failed, appliedAt := none,
      affectedFiles := [], writes := [], errors := acc.errors }

/-- The store visible through getFileContent after a sequence of
setFileContent calls. -/
def storeAfterWrites (get : Store) (writes : List (String × List String)) : Store :=
  writes.foldl (fun g w => fun q => if q = w.1 then some w.2 else g q) get

/-- Kind flip performed by createReversePatch (patch-utils.ts:566):
insert becomes delete, delete becomes insert, everything else (replace and
move) becomes replace. -/
def reverseOpType : OpType → OpType
  | .insert => .delete
  | .delete => .insert
  | _ => .replace

/-- The per-operation reversal of createReversePatch (patch-utils.ts:566-580):
flip the kind, swap old and new content, keep id, file path and the declared
line range. -/
def reverseOp (op : PatchOperation) : PatchOperation :=
  { op with type := reverseOpType op.type,
            oldContent := op.newContent,
            newContent := op.oldContent }

/-- Model of createReversePatch (patch-utils.ts:562-584): flip each
operation's kind, swap its old and new content, and reverse the operation
order. -/
def createReversePatch (patch : Patch) : Patch :=
  { name := "Revert: " ++ patch.name,
    operations := (patch.operations.map reverseOp).reverse,
    status := .pending }

/-- Kind of a line-diff change region (patch-utils.ts:134-140). -/
inductive ChangeKind where
  | insert
  | delete
  | replace
deriving DecidableEq, Repr

/-- One change region emitted by computeLineDiff (patch-utils.ts:134-140);
line numbers are 1-based and inclusive. -/
structure LineDiffChange where
  kind : ChangeKind
  oldStart : Nat
  oldEnd : Nat
  newStart : Nat
  newEnd : Nat
deriving DecidableEq, Repr

/-- Row i+1 of the LCS dynamic-programming table of computeLCS
(patch-utils.ts:221-231), computed from row i: the value at column j is the
LCS length of the first i+1 lines of a and the first j lines of b. -/
def lcsRow (a b : List String) (prev : Nat → Nat) (i : Nat) : Nat → Nat
  | 0 => 0
  | j + 1 =>
      if a.get? i = b.get? j then prev j + 1
      else max (prev (j + 1)) (lcsRow a b prev i j)

/-- The LCS table dp of computeLCS (patch-utils.ts:221-231): lcsDp a b i j is
dp[i][j]. -/
def lcsDp (a b : List String) : Nat → Nat → Nat
  | 0 => fun _ => 0
  | i + 1 => lcsRow a b (lcsDp a b i) i

/-- The backtracking loop of computeLCS (patch-utils.ts:234-248), with an
explicit fuel argument (every iteration decreases i + j, so fuel i + j is
always sufficient). -/
def lcsBack (a b : List String) : Nat → Nat → Nat → List String
  | 0, _, _ => []
  | _ + 1, 0, _ => []
  | _ + 1, _ + 1, 0 => []
  | f + 1, i + 1, j + 1 =>
      if a.get? i = b.get? j then lcsBack a b f i j ++ [a.getD i ""]
      else if lcsDp a b i (j + 1) > lcsDp a b (i + 1) j then lcsBack a b f i (j + 1)
      else lcsBack a b f (i + 1) j

/-- Model of computeLCS (patch-utils.ts:216-251): longest common subsequence
of two line lists via the DP table and backtracking. -/
def computeLCS (a b : List String) : List String :=
  lcsBack a b (a.length + b.length) a.length b.length

/-- A bounded while-loop advancing an index while a condition holds, used for
the inner index-skipping loops of computeLineDiff.  The conditions all imply
an upper bound on the index, so the fuel passed (the list length) always
suffices. -/
def advanceIdx (cond : Nat → Bool) : Nat → Nat → Nat
  | 0, x => x
  | f + 1, x => if cond x then advanceIdx cond f (x + 1) else x

/-- The condition of the inner index-skipping while-loops of computeLineDiff
(patch-utils.ts:166, 177, 188-189): keep advancing while in range and the
current line is not the current LCS line (or the LCS is exhausted). -/
def skipCond (lines lcs : List String) (k : Nat) : Nat → Bool :=
  fun x => decide (x < lines.length) &&
    (decide (lcs.length ≤ k) || decide (¬ lines.get? x = lcs.get? k))

/-- The main walk of computeLineDiff (patch-utils.ts:148-208): walk the
original and modified line lists against the LCS, emitting insert / delete /
replace regions for the non-common runs.  The outer while-loop is given fuel;
every iteration advances i + j by at least one whenever the remaining LCS is
a subsequence of both remainders (always true for a computeLCS result), so
fuel original.length + modified.length is sufficient. -/
def walkDiff (original modified lcs : List String) :
    Nat → Nat → Nat → Nat → List LineDiffChange
  | 0, _, _, _ => []
  | f + 1, i, j, k =>
      if i < original.length ∨ j < modified.length then
        if k < lcs.length ∧ i < original.length ∧ original.get? i = lcs.get? k then
          if j < modified.length ∧ modified.get? j = lcs.get? k then
            walkDiff original modified lcs f (i + 1) (j + 1) (k + 1)
          else
            { kind := .insert, oldStart := i + 1, oldEnd := i, newStart := j + 1,
              newEnd := advanceIdx (skipCond modified lcs k) modified.length j } ::
              walkDiff original modified lcs f i
                (advanceIdx (skipCond modified lcs k) modified.length j) k
        else if k < lcs.length ∧ j < modified.length ∧ modified.get? j = lcs.get? k then
          { kind := .delete, oldStart := i + 1,
            oldEnd := advanceIdx (skipCond original lcs k) original.length i,
            newStart := j + 1, newEnd := j } ::
            walkDiff original modified lcs f
              (advanceIdx (skipCond original lcs k) original.length i) j k
        else
          if i < advanceIdx (skipCond original lcs k) original.length i ∨
              j < advanceIdx (skipCond modified lcs k) modified.length j then
            { kind :=
                if i < advanceIdx (skipCond original lcs k) original.length i ∧
                    j < advanceIdx (skipCond modified lcs k) modified.length j then
                  ChangeKind.replace
                else if i < advanceIdx (skipCond original lcs k) original.length i then
                  ChangeKind.delete
                else ChangeKind.insert,
              oldStart := i + 1,
              oldEnd := advanceIdx (skipCond original lcs k) original.length i,
              newStart := j + 1,
              newEnd := advanceIdx (skipCond modified lcs k) modified.length j } ::
              walkDiff original modified lcs f
                (advanceIdx (skipCond original lcs k) original.length i)
                (advanceIdx (skipCond modified lcs k) modified.length j) k
          else
            walkDiff original modified lcs f i j k
      else []

/-- One step of mergeAdjacentChanges (patch-utils.ts:256-277) over the
reversed accumulator (head = most recently emitted change): merge the current
change into the previous one when same-kind and exactly adjacent. -/
def mergeStep (merged : List LineDiffChange) (curr : LineDiffChange) :
    List LineDiffChange :=
  match merged with
  | [] => [curr]
  | prev :: rest =>
      if prev.kind = curr.kind ∧ prev.oldEnd = curr.oldStart - 1 ∧
          prev.newEnd = curr.newStart - 1 then
        { prev with oldEnd := curr.oldEnd, newEnd := curr.newEnd } :: rest
      else curr :: prev :: rest

/-- Model of mergeAdjacentChanges (patch-utils.ts:256-277). -/
def mergeAdjacentChanges (changes : List LineDiffChange) : List LineDiffChange :=
  (changes.foldl mergeStep []).reverse

/-- Model of computeLineDiff (patch-utils.ts:142-211). -/
def computeLineDiff (original modified : List String) : List LineDiffChange :=
  mergeAdjacentChanges
    (walkDiff original modified (computeLCS original modified)
      (original.length + modified.length) 0 0 0)

/-- The operation generateLinePatches builds for one change region
(patch-utils.ts:89-126).  Inserts carry the region's position in the modified
file (newStart) and no end line; deletes and replaces carry original-file
coordinates.  The generated ids are irrelevant to behaviour and modelled as
"". -/
def opOfChange (filePath : String) (originalLines modifiedLines : List String)
    (change : LineDiffChange) : PatchOperation :=
  match change.kind with
  | .delete =>
      { id := "", type := .delete, filePath := filePath,
        startLine := some change.oldStart, endLine := some change.oldEnd,
        oldContent := jsSlice originalLines ((change.oldStart : Int) - 1) (change.oldEnd : Int),
        newContent := [""] }
  | .insert =>
      { id := "", type := .insert, filePath := filePath,
        startLine := some change.newStart, endLine := none,
        oldContent := [""],
        newContent := jsSlice modifiedLines ((change.newStart : Int) - 1) (change.newEnd : Int) }
  | .replace =>
      { id := "", type := .replace, filePath := filePath,
        startLine := some change.oldStart, endLine := some change.oldEnd,
        oldContent := jsSlice originalLines ((change.oldStart : Int) - 1) (change.oldEnd : Int),
        newContent := jsSlice modifiedLines ((change.newStart : Int) - 1) (change.newEnd : Int) }

/-- Model of generateLinePatches (patch-utils.ts:75-129): line-based patch
operations from two contents. -/
def generateLinePatches (filePath : String) (originalContent modifiedContent : List String) :
    List PatchOperation :=
  (computeLineDiff originalContent modifiedContent).map
    (opOfChange filePath originalContent modifiedContent)

/-- Conflict kinds (packages/types/src/patch.ts, PatchConflict.type). -/
inductive ConflictType where
  | contentChanged
  | lineDeleted
  | overlappingChange
deriving DecidableEq, Repr

/-- Resolution kinds (packages/types/src/patch.ts, PatchResolution.type). -/
inductive ResolutionType where
  | forceApply
  | skip
  | merge
  | manual
deriving DecidableEq, Repr

/-- A conflict resolution option (packages/types/src/patch.ts).  The id and
description strings are represented by the kind plus, for relocate
resolutions, the 1-based target line baked into their id. -/
structure PatchResolution where
  rtype : ResolutionType
  relocateLine : Option Nat
deriving DecidableEq, Repr

/-- A validation conflict (packages/types/src/patch.ts, PatchConflict). -/
structure PatchConflict where
  operationId : String
  filePath : String
  line : Option Nat
  ctype : ConflictType
  currentContent : List String
  expectedContent : List String
  resolutions : List PatchResolution
deriving DecidableEq, Repr

/-- A validation result (packages/types/src/patch.ts, PatchValidation).
warnings is always empty in the source and omitted. -/
structure PatchValidation where
  isValid : Bool
  canApply : Bool
  conflicts : List PatchConflict
deriving DecidableEq, Repr

/-- Conflicts recorded for a single operation by validatePatch's loop body
(patch-utils.ts:289-369). -/
def validateOp (get : Store) (op : PatchOperation) : List PatchConflict :=
  match get op.filePath with
  | none =>
      if op.type ≠ OpType.insert then
        [{ operationId := op.id, filePath := op.filePath, line := none,
           ctype := .contentChanged, currentContent := [""],
           expectedContent := op.oldContent,
           resolutions := [{ rtype := .skip, relocateLine := none }] }]
      else []
  | some lines =>
      match op.startLine with
      | none => []
      | some startLine =>
          if startLine < 1 ∨ startLine > lines.length + 1 then
            [{ operationId := op.id, filePath := op.filePath, line := some startLine,
               ctype := .lineDeleted, currentContent := [""],
               expectedContent := op.oldContent,
               resolutions := [{ rtype := .skip, relocateLine := none },
                               { rtype := .forceApply, relocateLine := none }] }]
          else if op.type = OpType.replace ∨ op.type = OpType.delete then
            let endLine := op.endLine.getD startLine
            let actualContent := jsSlice lines ((startLine : Int) - 1) (endLine : Int)
            if actualContent = op.oldContent then []
            else
              let oldLines := op.oldContent
              let found := (List.range (lines.length + 1 - oldLines.length)).find?
                (fun i => jsSlice lines (Int.ofNat i) (Int.ofNat (i + oldLines.length)) = oldLines)
              let resolutions :=
                [{ rtype := ResolutionType.skip, relocateLine := none },
                 { rtype := ResolutionType.forceApply, relocateLine := none }] ++
                (match found with
                 | some i => [{ rtype := ResolutionType.merge, relocateLine := some (i + 1) }]
                 | none => [])
              [{ operationId := op.id, filePath := op.filePath, line := some startLine,
                 ctype := .contentChanged, currentContent := actualContent,
                 expectedContent := op.oldContent, resolutions := resolutions }]
          else []

/-- Model of validatePatch (patch-utils.ts:282-377): collect per-operation
conflicts; isValid holds when there are none, canApply when every conflict
has at least one resolution. -/
def validatePatch (patch : Patch) (get : Store) : PatchValidation :=
  let conflicts := patch.operations.foldl (fun acc op => acc ++ validateOp get op) []
  { isValid := conflicts.isEmpty,
    canApply := conflicts.all (fun c => 0 < c.resolutions.length),
    conflicts := conflicts }

/-- Atoms of the regular expression that matchGlob (file-index.ts:125-134)
builds from a glob pattern: a case-folded literal character, the
any-single-character dot (emitted for ? and for a literal . in the pattern,
matching any character except a line terminator), the [^/]* run emitted for
*, and the .* run emitted for **. -/
inductive RAtom where
  | lit (c : Char)
  | dot
  | starNonSep
  | starAny
deriving DecidableEq, Repr

/-- Line terminators excluded by the regular-expression dot. -/
def isLineTerminator (c : Char) : Bool :=
  c = '\n' || c = '\r' || c = Char.ofNat 0x2028 || c = Char.ofNat 0x2029

/-- The sequential replacements of matchGlob (file-index.ts:127-131): ** pairs
(leftmost first) become .*, remaining * become [^/]*, ? becomes the dot, and
every other character is inserted into the regex verbatim.  A verbatim . is
the regex any-character dot; other characters are literals (the claims only
exercise patterns without further regex metacharacters). -/
def globTokens : List Char → List RAtom
  | '*' :: '*' :: rest => .starAny :: globTokens rest
  | '*' :: rest => .starNonSep :: globTokens rest
  | '?' :: rest => .dot :: globTokens rest
  | '.' :: rest => .dot :: globTokens rest
  | c :: rest => .lit c.toLower :: globTokens rest
  | [] => []

/-- Backtracking matcher for the anchored, case-insensitive regular
expression ^...$ that matchGlob builds.  Fuel bounds the recursion; every
step decreases atoms + input, so the fuel passed below always suffices. -/
def rmatch : Nat → List RAtom → List Char → Bool
  | 0, _, _ => false
  | _ + 1, [], s => s.isEmpty
  | f + 1, RAtom.lit c :: ps, s =>
      match s with
      | [] => false
      | x :: xs => x.toLower = c && rmatch f ps xs
  | f + 1, RAtom.dot :: ps, s =>
      match s with
      | [] => false
      | x :: xs => !isLineTerminator x && rmatch f ps xs
  | f + 1, RAtom.starNonSep :: ps, s =>
      rmatch f ps s ||
        (match s with
         | [] => false
         | x :: xs => !(x = '/') && rmatch f (RAtom.starNonSep :: ps) xs)
  | f + 1, RAtom.starAny :: ps, s =>
      rmatch f ps s ||
        (match s with
         | [] => false
         | x :: xs => !isLineTerminator x && rmatch f (RAtom.starAny :: ps) xs)

/-- Model of matchGlob (file-index.ts:125-134): compile the glob pattern to
the regular expression described above and test the whole string against it
case-insensitively. -/
def matchGlob (pattern str : String) : Bool :=
  let ps := globTokens pattern.toList
  let s := str.toList
  rmatch (ps.length + s.length + 1) ps s

/-- File or folder kind (vfs VirtualFile.type). -/
inductive FileType where
  | file
  | folder
deriving DecidableEq, Repr

/-- A file entity as the index and store see it (vfs VirtualFile).  Only the
fields the embedded functions read are modelled; byte size and timestamps are
omitted (no claim concerns them). -/
structure VirtualFile where
  path : String
  ftype : FileType
  language : Option String
  extension : Option String
  parentPath : Option String
  imports : Option (List String)
  exports : Option (List String)
  content : Option String
  contentLoaded : Bool
deriving DecidableEq, Repr

/-- Add an element to a JavaScript Set modelled as an insertion-ordered
duplicate-free list. -/
def setAdd (l : List String) (x : String) : List String :=
  if x ∈ l then l else l ++ [x]

/-- new Set(list): deduplicate keeping first occurrences. -/
def dedupFirst (l : List String) : List String :=
  l.foldl setAdd []

/-- Map.get(k) ?? ensure-new-Set() followed by .add(v), over a map modelled
as a function. -/
def mapSetAdd (m : String → Option (List String)) (k v : String) :
    String → Option (List String) :=
  fun q => if q = k then some (setAdd ((m k).getD []) v) else m q

/-- Map.get(k) ?? ensure-new-Array() followed by .push(v): unlike mapSetAdd
this appends unconditionally (arrays are not sets). -/
def mapPush (m : String → Option (List String)) (k v : String) :
    String → Option (List String) :=
  fun q => if q = k then some (((m k).getD []) ++ [v]) else m q

/-- The file index (file-index.ts, createFileIndex): the path map and the six
derived structures, each Map modelled as a function from key to value.
byLanguage / byExtension / folders / exportGraph hold Sets, symbols holds
Arrays, importGraph holds Sets built from the imports list. -/
structure FileIndex where
  byPath : String → Option VirtualFile
  byLanguage : String → Option (List String)
  byExtension : String → Option (List String)
  folders : String → Option (List String)
  symbols : String → Option (List String)
  importGraph : String → Option (List String)
  exportGraph : String → Option (List String)

/-- Model of createFileIndex (file-index.ts:12-22). -/
def createFileIndex : FileIndex :=
  { byPath := fun _ => none, byLanguage := fun _ => none,
    byExtension := fun _ => none, folders := fun _ => none,
    symbols := fun _ => none, importGraph := fun _ => none,
    exportGraph := fun _ => none }

/-- Model of indexFile (file-index.ts:27-77): record the entity under every
derived structure.  Symbols are pushed (not set-added); the import graph
entry is overwritten with a deduplicated set; reverse import edges are
set-added. -/
def indexFile (index : FileIndex) (file : VirtualFile) : FileIndex :=
  let i1 := { index with byPath := fun q => if q = file.path then some file else index.byPath q }
  let i2 := match file.language with
    | none => i1
    | some lang => { i1 with byLanguage := mapSetAdd i1.byLanguage lang file.path }
  let i3 := match file.extension with
    | none => i2
    | some ext => { i2 with byExtension := mapSetAdd i2.byExtension ext file.path }
  let i4 := match file.parentPath with
    | none => i3
    | some parent => { i3 with folders := mapSetAdd i3.folders parent file.path }
  let i5 := match file.exports with
    | none => i4
    | some exps => exps.foldl (fun ix sym => { ix with symbols := mapPush ix.symbols sym file.path }) i4
  match file.imports with
  | none => i5
  | some imps =>
      let i6 := { i5 with importGraph := fun q =>
        if q = file.path then some (dedupFirst imps) else i5.importGraph q }
      imps.foldl (fun ix imp => { ix with exportGraph := mapSetAdd ix.exportGraph imp file.path }) i6

/-- Map.get(k)?.delete(path) over a map of Sets (or the first-occurrence
removal paths.indexOf / paths.splice over a map of Arrays — both remove the
first occurrence): remove path from the value at key k, when present. -/
def mapEraseAt (m : String → Option (List String)) (k path : String) :
    String → Option (List String) :=
  fun q => if q = k then (m k).map (fun l => l.erase path) else m q

/-- Model of unindexFile (file-index.ts:82-120): a no-op when the path is not
indexed; otherwise retract the entity's contribution from every structure
(symbols lose the first occurrence of the path, every reverse-import set
drops it). -/
def unindexFile (index : FileIndex) (path : String) : FileIndex :=
  match index.byPath path with
  | none => index
  | some file =>
      let i1 := { index with byPath := fun q => if q = path then none else index.byPath q }
      let i2 := match file.language with
        | none => i1
        | some lang => { i1 with byLanguage := mapEraseAt i1.byLanguage lang path }
      let i3 := match file.extension with
        | none => i2
        | some ext => { i2 with byExtension := mapEraseAt i2.byExtension ext path }
      let i4 := match file.parentPath with
        | none => i3
        | some parent => { i3 with folders := mapEraseAt i3.folders parent path }
      let i5 := match file.exports with
        | none => i4
        | some exps =>
            exps.foldl (fun ix sym => { ix with symbols := mapEraseAt ix.symbols sym path }) i4
      { i5 with importGraph := fun q => if q = path then none else i5.importGraph q,
                exportGraph := fun q => (i5.exportGraph q).map (fun l => l.erase path) }

/-- Model of VirtualFileSystem.normalizePath (virtual-fs.ts:584-595):
backslashes become slashes, a leading slash is ensured, a trailing slash is
stripped (except for the root). -/
def normalizePath (path : String) : String :=
  let cs := path.toList.map (fun c => if c = '\\' then '/' else c)
  let cs := match cs with
    | '/' :: _ => cs
    | _ => '/' :: cs
  let cs := if cs.length > 1 ∧ cs.getLast? = some '/' then cs.dropLast else cs
  String.mk cs

/-- The virtual file system state: the canonical path-to-entity map and the
index (virtual-fs.ts:35-38). -/
structure VirtualFileSystem where
  files : String → Option VirtualFile
  index : FileIndex

/-- Model of VirtualFileSystem.updateContent (virtual-fs.ts:91-107): look the
file up under the normalized path, fail on folders and absent paths,
otherwise store the new content, re-run import/export analysis and re-index
by calling indexFile — with no prior unindexFile call.  The import/export
analysis (analyzeFileImports, a host-regex scan of the content) is injected
as the analyze argument returning the new (imports, exports) pair; no claim
depends on its internals. -/
def updateContent
    (analyze : VirtualFile → String → Option (List String) × Option (List String))
    (vfs : VirtualFileSystem) (path content : String) :
    VirtualFileSystem × Bool :=
  match vfs.files (normalizePath path) with
  | none => (vfs, false)
  | some file =>
      if file.ftype = FileType.folder then (vfs, false)
      else
        let analysis := analyze file content
        let file' : VirtualFile :=
          { file with
            content := some content
            contentLoaded := true
            imports := analysis.1
            exports := analysis.2 }
        ({ files := fun q => if q = normalizePath path then some file' else vfs.files q,
           index := indexFile vfs.index file' }, true)

/-- History entry kinds (packages/types/src/patch.ts, HistoryEntry.type). -/
inductive HistoryEntryType where
  | apply
  | revert
  | edit
deriving DecidableEq, Repr

/-- One history entry (packages/types/src/patch.ts, HistoryEntry).  Content
fields hold line lists; timestamps/descriptions are omitted. -/
structure HistoryEntry where
  id : String
  etype : HistoryEntryType
  patch : Option Patch
  filePath : Option String
  oldContent : Option (List String)
  newContent : Option (List String)
  groupId : Option String
deriving DecidableEq, Repr

/-- The history manager's state (history-manager.ts:14-22).  Stacks are
modelled with the most recent entry at the head (JavaScript pushes/pops at
the array's end). -/
structure HistoryManager where
  undoStack : List HistoryEntry
  redoStack : List HistoryEntry
  maxHistorySize : Nat
  currentGroupId : Option String
deriving DecidableEq, Repr

/-- Model of HistoryManager.applyUndo (history-manager.ts:204-220): apply the
entry's inverse effect through the accessor pair — the reverse patch for
apply entries, the recorded old content for edits, the original patch for
revert entries. -/
def applyUndoEntry (entry : HistoryEntry) (store : Store) : Store :=
  match entry.etype with
  | .apply =>
      match entry.patch with
      | some p => storeAfterWrites store (applyPatch (createReversePatch p) store 0).writes
      | none => store
  | .edit =>
      match entry.filePath, entry.oldContent with
      | some path, some oldc => fun q => if q = path then some oldc else store q
      | _, _ => store
  | .revert =>
      match entry.patch with
      | some p => storeAfterWrites store (applyPatch p store 0).writes
      | none => store

/-- Model of HistoryManager.applyRedo (history-manager.ts:225-241): re-apply
the entry's forward effect. -/
def applyRedoEntry (entry : HistoryEntry) (store : Store) : Store :=
  match entry.etype with
  | .apply =>
      match entry.patch with
      | some p => storeAfterWrites store (applyPatch p store 0).writes
      | none => store
  | .edit =>
      match entry.filePath, entry.newContent with
      | some path, some newc => fun q => if q = path then some newc else store q
      | _, _ => store
  | .revert =>
      match entry.patch with
      | some p => storeAfterWrites store (applyPatch (createReversePatch p) store 0).writes
      | none => store

/-- Model of HistoryManager.undo (history-manager.ts:137-164): pop the top
entry (plus the contiguous run sharing its group id, when grouped), apply
each popped entry's undo effect in pop order, and push each onto the redo
stack. -/
def undo (hm : HistoryManager) (store : Store) :
    HistoryManager × Store × List HistoryEntry :=
  match hm.undoStack with
  | [] => (hm, store, [])
  | first :: rest =>
      let grp := match first.groupId with
        | none => []
        | some gid => rest.takeWhile (fun e => e.groupId = some gid)
      let rest' := match first.groupId with
        | none => rest
        | some gid => rest.dropWhile (fun e => e.groupId = some gid)
      let undone := first :: grp
      let store' := undone.foldl (fun st e => applyUndoEntry e st) store
      ({ hm with undoStack := rest', redoStack := undone.reverse ++ hm.redoStack },
       store', undone)

/-- Model of HistoryManager.redo (history-manager.ts:169-199): pop the top
redo entry (plus its group run), reverse the popped run so effects replay in
original forward order, apply each redo effect, and push each back onto the
undo stack. -/
def redo (hm : HistoryManager) (store : Store) :
    HistoryManager × Store × List HistoryEntry :=
  match hm.redoStack with
  | [] => (hm, store, [])
  | first :: rest =>
      let grp := match first.groupId with
        | none => []
        | some gid => rest.takeWhile (fun e => e.groupId = some gid)
      let rest' := match first.groupId with
        | none => rest
        | some gid => rest.dropWhile (fun e => e.groupId = some gid)
      let redone := (first :: grp).reverse
      let store' := redone.foldl (fun st e => applyRedoEntry e st) store
      ({ hm with redoStack := rest', undoStack := redone.reverse ++ hm.undoStack },
       store', redone)

/-- Iterate undo n times, threading manager and store. -/
def iterateUndo : Nat → HistoryManager × Store → HistoryManager × Store
  | 0, s => s
  | n + 1, (hm, st) =>
      let r := undo hm st
      iterateUndo n (r.1, r.2.1)

/-- Iterate redo n times, threading manager and store. -/
def iterateRedo : Nat → HistoryManager × Store → HistoryManager × Store
  | 0, s => s
  | n + 1, (hm, st) =>
      let r := redo hm st
      iterateRedo n (r.1, r.2.1)

/-! Concrete instances used by counterexamples and witnesses. -/

/-- A replace operation whose new text has more lines than its declared
range: line 1, "a" becomes "x\ny". -/
def c1op : PatchOperation :=
  { id := "c1op", type := .replace, filePath := "/f", startLine := some 1,
    endLine := none, oldContent := ["a"], newContent := ["x", "y"] }

/-- Single-operation patch around c1op. -/
def c1patch : Patch := { name := "c1", operations := [c1op], status := .pending }

/-- Store holding the single file /f = "a". -/
def c1get : Store := fun p => if p = "/f" then some ["a"] else none

/-- Store state after applying c1patch to c1get. -/
def c1get1 : Store := storeAfterWrites c1get (applyPatch c1patch c1get 0).writes

/-- Delete of line 2 ("b") of /f. -/
def c6del1 : PatchOperation :=
  { id := "c6d1", type := .delete, filePath := "/f", startLine := some 2,
    endLine := some 2, oldContent := ["b"], newContent := [""] }

/-- Delete of line 5 ("e") of /f. -/
def c6del2 : PatchOperation :=
  { id := "c6d2", type := .delete, filePath := "/f", startLine := some 5,
    endLine := some 5, oldContent := ["e"], newContent := [""] }

/-- Patch deleting lines 2 and 5 of /f. -/
def c6patch : Patch := { name := "c6", operations := [c6del1, c6del2], status := .pending }

/-- Store before the recorded mutation: /f = "a\nb\nc\nd\ne\nf". -/
def c6store0 : Store := fun p => if p = "/f" then some ["a", "b", "c", "d", "e", "f"] else none

/-- Store after applying c6patch: the state the history manager should
restore after one undo followed by one redo. -/
def c6post : Store := storeAfterWrites c6store0 (applyPatch c6patch c6store0 0).writes

/-- History entry recording the application of c6patch. -/
def c6entry : HistoryEntry :=
  { id := "c6h", etype := .apply, patch := some c6patch, filePath := none,
    oldContent := none, newContent := none, groupId := none }

/-- History manager state right after recording c6entry. -/
def c6hm0 : HistoryManager :=
  { undoStack := [c6entry], redoStack := [], maxHistorySize := 100, currentGroupId := none }

/-- A file entity exporting symbol foo and importing module m. -/
def c2fileOld : VirtualFile :=
  { path := "/a.ts", ftype := .file, language := some "typescript",
    extension := some "ts", parentPath := none, imports := some ["m"],
    exports := some ["foo"], content := some "export const foo = 1",
    contentLoaded := true }

/-- Index holding exactly c2fileOld. -/
def c2idx0 : FileIndex := indexFile createFileIndex c2fileOld

/-- Virtual file system holding exactly c2fileOld, indexed. -/
def c2vfs0 : VirtualFileSystem :=
  { files := fun p => if p = "/a.ts" then some c2fileOld else none, index := c2idx0 }

/-- Import/export analysis of the new content: imports n, exports bar. -/
def c2analyze : VirtualFile → String → Option (List String) × Option (List String) :=
  fun _ _ => (some ["n"], some ["bar"])

/-- State after updateContent replaces /a.ts's content (new analysis:
imports n, exports bar). -/
def c2vfs1 : VirtualFileSystem :=
  (updateContent c2analyze c2vfs0 "/a.ts" "import { x } from n; export const bar = 1").1

/-- A replace operation recorded against old text "foo" at line 2. -/
def c5op : PatchOperation :=
  { id := "c5op", type := .replace, filePath := "/f", startLine := some 2,
    endLine := none, oldContent := ["foo"], newContent := ["baz"] }

/-- Single-operation patch around c5op. -/
def c5patch : Patch := { name := "c5", operations := [c5op], status := .pending }

/-- Store holding /f with the given lines. -/
def c5store (L : List String) : Store := fun p => if p = "/f" then some L else none

/-- The relocation search validatePatch performs for c5op over content L:
first index whose one-line slice equals ["foo"]. -/
def c5find (L : List String) : Option Nat :=
  (List.range (L.length + 1 - 1)).find?
    (fun i => decide (jsSlice L (Int.ofNat i) (Int.ofNat (i + 1)) = ["foo"]))

/-- Insert into the absent file /a. -/
def c9insOp : PatchOperation :=
  { id := "c9i", type := .insert, filePath := "/a", startLine := some 1,
    endLine := none, oldContent := [""], newContent := ["hello"] }

/-- Delete targeting the (also absent) file /b. -/
def c9delOp : PatchOperation :=
  { id := "c9d", type := .delete, filePath := "/b", startLine := some 1,
    endLine := some 1, oldContent := ["a"], newContent := [""] }

/-- Patch with an insert-only absent file /a plus a failing operation on the
absent file /b. -/
def c9patchBad : Patch :=
  { name := "c9bad", operations := [c9insOp, c9delOp], status := .pending }

/-- Patch containing only the insert into the absent file /a. -/
def c9patchGood : Patch :=
  { name := "c9good", operations := [c9insOp], status := .pending }

/-- The empty store: every file absent. -/
def c9get : Store := fun _ => none

/-- A replace operation with no startLine whose recorded old text does not
match the live content. -/
def c10op : PatchOperation :=
  { id := "c10op", type := .replace, filePath := "/f", startLine := none,
    endLine := none, oldContent := ["zzz"], newContent := ["q"] }

/-- Single-operation patch around c10op. -/
def c10patch : Patch := { name := "c10", operations := [c10op], status := .pending }

/-- Store holding the single file /f = "a". -/
def c10get : Store := fun p => if p = "/f" then some ["a"] else none

/-- Original lines of the C4 counterexample. -/
def c4orig : List String := ["K", "X", "L", "M"]

/-- Modified lines of the C4 counterexample: its LCS-based diff against
c4orig is a delete at original line 2 plus an insert at modified line 3. -/
def c4mod : List String := ["K", "L", "W", "M"]

/-- The group an association accumulator currently holds for a path (empty
when the path has no group yet). -/
def lookupGroup (acc : List (String × List PatchOperation)) (p : String) :
    List PatchOperation :=
  match acc.find? (fun g => g.1 = p) with
  | some g => g.2
  | none => []

/-- Overwrite one file's content in a store (the effect of one
setFileContent call). -/
def setStore (st : Store) (p : String) (c : List String) : Store :=
  fun q => if q = p then some c else st q

/-- An ungrouped direct-edit history entry with all its edit fields set. -/
def PlainEdit (e : HistoryEntry) : Prop :=
  e.etype = HistoryEntryType.edit ∧ e.groupId = none ∧
  e.filePath.isSome = true ∧ e.oldContent.isSome = true ∧ e.newContent.isSome = true

/-- Replay the entries' new contents in order (the store state after the
recorded mutations, and after any redo pass). -/
def writeNews (entries : List HistoryEntry) (st : Store) : Store :=
  entries.foldl (fun s e => setStore s (e.filePath.getD "") (e.newContent.getD [])) st

/-- Replay the entries' old contents in order (the store state produced by
an undo pass). -/
def writeOlds (entries : List HistoryEntry) (st : Store) : Store :=
  entries.foldl (fun s e => setStore s (e.filePath.getD "") (e.oldContent.getD [])) st

instance (e : HistoryEntry) : Decidable (PlainEdit e) := by
  unfold PlainEdit
  infer_instance

/-- An edit entry over /f: "a" became "b". -/
def c6e1 : HistoryEntry :=
  { id := "e1", etype := .edit, patch := none, filePath := some "/f",
    oldContent := some ["a"], newContent := some ["b"], groupId := none }

/-- An edit entry over /g: "x" became "y". -/
def c6e2 : HistoryEntry :=
  { id := "e2", etype := .edit, patch := none, filePath := some "/g",
    oldContent := some ["x"], newContent := some ["y"], groupId := none }

/-- A decomposition certificate relating an operation list to an original
and a target content: reading the operations in list order while walking
both contents, each operation is a delete or replace whose declared range
and recorded old text sit exactly at the current original position (and,
for replaces, whose new text sits exactly at the current target position),
with common lines in between.  Operations certified this way are exactly
the delete/replace operations generateLinePatches emits, and the uniform
replaces of the reverse-patch round trip. -/
inductive OpsDecomp (orig modL : List String) :
    List PatchOperation → Nat → Nat → Prop where
  | nil : OpsDecomp orig modL [] orig.length modL.length
  | skip {ops : List PatchOperation} {i j : Nat} {x : String} :
      orig.get? i = some x → modL.get? j = some x →
      OpsDecomp orig modL ops (i + 1) (j + 1) → OpsDecomp orig modL ops i j
  | del {ops : List PatchOperation} {i j d : Nat} (op : PatchOperation) :
      op.type = OpType.delete → op.startLine = some (i + 1) →
      op.endLine = some (i + d) → 1 ≤ d → i + d ≤ orig.length →
      op.oldContent = (orig.drop i).take d →
      OpsDecomp orig modL ops (i + d) j → OpsDecomp orig modL (op :: ops) i j
  | rep {ops : List PatchOperation} {i j d e : Nat} (op : PatchOperation) :
      op.type = OpType.replace → op.startLine = some (i + 1) →
      op.endLine = some (i + d) → 1 ≤ d → i + d ≤ orig.length →
      op.oldContent = (orig.drop i).take d →
      1 ≤ e → j + e ≤ modL.length → op.newContent = (modL.drop j).take e →
      OpsDecomp orig modL ops (i + d) (j + e) → OpsDecomp orig modL (op :: ops) i j

/-- Decomposition certificate for a list of line-diff change regions against
an original content and a target content: reading the changes in order while
walking both contents, each change is a delete or replace region sitting
exactly at the current positions (with the coordinates computeLineDiff
emits), with common lines in between. -/
inductive ChDecomp (orig modL : List String) :
    List LineDiffChange → Nat → Nat → Prop where
  | nil : ChDecomp orig modL [] orig.length modL.length
  | skip {cs : List LineDiffChange} {i j : Nat} {x : String} :
      orig.get? i = some x → modL.get? j = some x →
      ChDecomp orig modL cs (i + 1) (j + 1) → ChDecomp orig modL cs i j
  | del {cs : List LineDiffChange} {i j d : Nat} :
      1 ≤ d → i + d ≤ orig.length →
      ChDecomp orig modL cs (i + d) j →
      ChDecomp orig modL
        ({ kind := .delete, oldStart := i + 1, oldEnd := i + d,
           newStart := j + 1, newEnd := j } :: cs) i j
  | rep {cs : List LineDiffChange} {i j d e : Nat} :
      1 ≤ d → i + d ≤ orig.length → 1 ≤ e → j + e ≤ modL.length →
      ChDecomp orig modL cs (i + d) (j + e) →
      ChDecomp orig modL
        ({ kind := .replace, oldStart := i + 1, oldEnd := i + d,
           newStart := j + 1, newEnd := j + e } :: cs) i j

/-- A run of common lines between two change regions: both positions advance
together over pairwise equal lines. -/
inductive Skips (orig modL : List String) : Nat → Nat → Nat → Nat → Prop where
  | refl {i j : Nat} : Skips orig modL i j i j
  | step {i j i2 j2 : Nat} {x : String} :
      orig.get? i = some x → modL.get? j = some x →
      Skips orig modL (i + 1) (j + 1) i2 j2 → Skips orig modL i j i2 j2

/-- Recursive formulation of the merge loop of mergeAdjacentChanges
(patch-utils.ts:256-277): the first argument is the last emitted change,
which absorbs each following change of the same kind that starts exactly
where it ends. -/
def mergeRec (c : LineDiffChange) : List LineDiffChange → List LineDiffChange
  | [] => [c]
  | c2 :: rest =>
      if c.kind = c2.kind ∧ c.oldEnd = c2.oldStart - 1 ∧ c.newEnd = c2.newStart - 1 then
        mergeRec { c with oldEnd := c2.oldEnd, newEnd := c2.newEnd } rest
      else c :: mergeRec c2 rest

/-- mergeRec lifted to a whole change list (proved equal to
mergeAdjacentChanges). -/
def mergeRecL : List LineDiffChange → List LineDiffChange
  | [] => []
  | c :: l => mergeRec c l

/-- Certificate for a file's operations being line-count-preserving
replaces, listed in ascending order of pairwise disjoint declared ranges,
whose recorded old text matches the original content at the range and whose
new text is the target content at the very same range (same-length
replacement keeps all coordinates aligned). -/
inductive RepDecomp (orig modL : List String) : List PatchOperation → Nat → Prop where
  | nil : orig.length = modL.length → RepDecomp orig modL [] orig.length
  | skip {ops : List PatchOperation} {i : Nat} {x : String} :
      orig.get? i = some x → modL.get? i = some x →
      RepDecomp orig modL ops (i + 1) → RepDecomp orig modL ops i
  | rep {ops : List PatchOperation} {i d : Nat} (op : PatchOperation) :
      op.type = OpType.replace → op.startLine = some (i + 1) →
      op.endLine = some (i + d) → 1 ≤ d → i + d ≤ orig.length →
      op.oldContent = (orig.drop i).take d →
      op.newContent = (modL.drop i).take d →
      RepDecomp orig modL ops (i + d) → RepDecomp orig modL (op :: ops) i

/-- A single uniform (length-preserving) replace operation on /f, for the
C1 round-trip witness. -/
def c1rop : PatchOperation :=
  { id := "", type := .replace, filePath := "/f", startLine := some 1,
    endLine := some 1, oldContent := ["a"], newContent := ["b"] }

/-- The witness patch holding just c1rop. -/
def c1rpatch : Patch := { name := "c1r", operations := [c1rop], status := .pending }

/-- The witness store: /f holds the single line "a". -/
def c1rget : Store := fun p => if p = "/f" then some ["a"] else none

/-! Claim theorems. -/

/-- C8: the glob matcher used by search satisfies: *.ts matches "app.ts" and
does not match "app/util.ts" (a * never crosses a path separator), while
**/util.ts matches "app/util.ts" (a ** may cross separators). -/
theorem c8_glob_matching :
    matchGlob "*.ts" "app.ts" = true ∧
    matchGlob "*.ts" "app/util.ts" = false ∧
    matchGlob "**/util.ts" "app/util.ts" = true := by
  decide

/-- C2 (code bug): updateContent re-indexes by calling indexFile with no
prior unindexFile, so after replacing /a.ts's content (old exports foo, old
imports m; new exports bar, new imports n) the stale symbol entry foo and
the stale reverse-import edge m → /a.ts both remain in the index, violating
the claimed retract-then-insert semantics. -/
theorem c2_stale_index_entries :
    (updateContent c2analyze c2vfs0 "/a.ts" "import { x } from n; export const bar = 1").2
        = true ∧
    c2vfs1.index.symbols "foo" = some ["/a.ts"] ∧
    c2vfs1.index.exportGraph "m" = some ["/a.ts"] ∧
    c2vfs1.index.symbols "bar" = some ["/a.ts"] ∧
    c2vfs1.index.importGraph "/a.ts" = some ["n"] := by
  refine ⟨?_, ?_, ?_, ?_, ?_⟩ <;> decide

/-- C7 (code bug): indexing the same exporting file twice duplicates its
symbol-table entries (the symbols map holds arrays that indexFile pushes to
unconditionally), so insertion is not idempotent; removing a path that is
not indexed is, as claimed, a no-op. -/
theorem c7_double_index_duplicates :
    (indexFile (indexFile createFileIndex c2fileOld) c2fileOld).symbols "foo"
        = some ["/a.ts", "/a.ts"] ∧
    (indexFile createFileIndex c2fileOld).symbols "foo" = some ["/a.ts"] ∧
    unindexFile (indexFile createFileIndex c2fileOld) "/missing"
        = indexFile createFileIndex c2fileOld := by
  refine ⟨by decide, by decide, rfl⟩

/-- C1 counterexample: a patch whose single replace operation turns the
one-line file /f = "a" into the two-line "x\ny" applies successfully, but
applying the patch produced by createReversePatch through the same accessor
pair fails (the reverse operation's range still spans one line while its
recorded old text has two), leaving /f at "x\ny" instead of restoring "a". -/
theorem c1_counterexample :
    (applyPatch c1patch c1get 0).success = true ∧
    c1get "/f" = some ["a"] ∧
    storeAfterWrites c1get1
        (applyPatch (createReversePatch c1patch) c1get1 0).writes "/f"
      = some ["x", "y"] := by
  refine ⟨by decide, by decide, by decide⟩

/-- C4 counterexample: for original "K\nX\nL\nM" and modified "K\nL\nW\nM"
the generated operations are a delete at original line 2 and an insert at
modified line 3; applied to the original in descending start-line order they
succeed but produce "K\nW\nL\nM", not the modified content. -/
theorem c4_counterexample :
    applyFileOps c4orig (generateLinePatches "/f" c4orig c4mod)
        = (["K", "W", "L", "M"], []) ∧
    (["K", "W", "L", "M"] : List String) ≠ c4mod := by
  refine ⟨by decide, by decide⟩

/-- C5 counterexample: with live content "a\nbar\nc" (old text "foo" found
nowhere), validatePatch still reports canApply = true — every
content-changed conflict carries the skip and force-apply resolutions — while
the claim demands canApply = false when "foo" occurs nowhere else. -/
theorem c5_counterexample :
    (validatePatch c5patch (c5store ["a", "bar", "c"])).canApply = true ∧
    ¬ ∃ i < 3, (["a", "bar", "c"] : List String).get? i = some "foo" := by
  refine ⟨by decide, by decide⟩

/-- C6 counterexample: one recorded mutation (the two-delete patch c6patch,
successfully applied to "a\nb\nc\nd\ne\nf" yielding "a\nc\nd\nf"), then one
undo and one redo.  The undo's reverse patch re-inserts both lines at stale
coordinates yielding "a\nb\nc\nd\nf\ne", and the redo's re-application then
fails, so the final content differs from the state after the original
mutation. -/
theorem c6_counterexample :
    (applyPatch c6patch c6store0 0).success = true ∧
    c6post "/f" = some ["a", "c", "d", "f"] ∧
    (iterateRedo 1 (iterateUndo 1 (c6hm0, c6post))).2 "/f"
        = some ["a", "b", "c", "d", "f", "e"] := by
  refine ⟨by decide, by decide, by decide⟩

/-- C9 counterexample: in a patch whose operations on the absent file /a are
all inserts but which also contains a failing operation (a delete on the
absent file /b), applyPatch reports errors and performs no write at all — /a
is not created, contrary to the claim's unconditional write. -/
theorem c9_counterexample :
    c9get "/a" = none ∧
    (∀ op ∈ c9patchBad.operations.filter (fun op => op.filePath = "/a"),
      op.type = OpType.insert) ∧
    (applyPatch c9patchBad c9get 0).errors ≠ [] ∧
    (applyPatch c9patchBad c9get 0).writes = [] := by
  refine ⟨by decide, by decide, by decide, by decide⟩

/-- The fileContents and affectedFiles accumulators of applyPatch's per-file
loop list the same files in the same order. -/
theorem processGroups_fst (get : Store) :
    ∀ groups : List (String × List PatchOperation),
      ((processGroups get groups).fileContents).map Prod.fst
        = (processGroups get groups).affectedFiles
  | [] => rfl
  | (filePath, operations) :: rest => by
      have ih := processGroups_fst get rest
      unfold processGroups
      cases hget : get filePath with
      | none =>
          by_cases hins : operations.all (fun op => op.type = OpType.insert) <;>
            simp [hins, ih]
      | some content => simp [ih]

/-- C3: applyPatch is all-or-nothing across the whole patch.  When any
operation fails (the error list is nonempty) no setFileContent call is made,
the patch's status becomes failed, and every file seen through the accessors
is unchanged; when no operation fails the patch's status becomes applied
with the application timestamp and exactly the touched files are written. -/
theorem c3_all_or_nothing (patch : Patch) (get : Store) (now : Nat) :
    ((applyPatch patch get now).errors ≠ [] →
      (applyPatch patch get now).writes = [] ∧
      (applyPatch patch get now).statusAfter = PatchStatus.failed ∧
      (applyPatch patch get now).success = false ∧
      ∀ p, storeAfterWrites get (applyPatch patch get now).writes p = get p) ∧
    ((applyPatch patch get now).errors = [] →
      (applyPatch patch get now).statusAfter = PatchStatus.applied ∧
      (applyPatch patch get now).appliedAt = some now ∧
      (applyPatch patch get now).success = true ∧
      ((applyPatch patch get now).writes).map Prod.fst
        = (applyPatch patch get now).affectedFiles) := by
  by_cases h : (processGroups get (groupByFile patch.operations)).errors = []
  · constructor
    · intro herr
      exact absurd (by simp [applyPatch, h]) herr
    · intro _
      simp [applyPatch, h, processGroups_fst]
  · constructor
    · intro _
      simp [applyPatch, h, storeAfterWrites]
    · intro hok
      simp only [applyPatch, h, if_false] at hok

/-- Witness for C3, instantiated at a succeeding patch (c1patch on c1get)
and at a failing one (c9patchBad on the empty store). -/
theorem c3_all_or_nothing_witness :
    ((applyPatch c1patch c1get 0).statusAfter = PatchStatus.applied ∧
      (applyPatch c1patch c1get 0).appliedAt = some 0) ∧
    ((applyPatch c9patchBad c9get 0).writes = [] ∧
      (applyPatch c9patchBad c9get 0).statusAfter = PatchStatus.failed) :=
  ⟨⟨((c3_all_or_nothing c1patch c1get 0).2 (by decide)).1,
    ((c3_all_or_nothing c1patch c1get 0).2 (by decide)).2.1⟩,
   ⟨((c3_all_or_nothing c9patchBad c9get 0).1 (by decide)).1,
    ((c3_all_or_nothing c9patchBad c9get 0).1 (by decide)).2.1⟩⟩

/-- An operation with no startLine against an existing file produces no
conflict in validatePatch: both the range check and the content check sit
under the startLine branch (patch-utils.ts:312). -/
theorem validateOp_no_startLine (get : Store) (op : PatchOperation)
    (h1 : op.startLine = none) (h2 : get op.filePath ≠ none) :
    validateOp get op = [] := by
  unfold validateOp
  cases hg : get op.filePath with
  | none => exact absurd hg h2
  | some lines => simp [h1]

/-- Folding conflict collection over operations that produce none leaves the
accumulator unchanged. -/
theorem foldl_conflicts_nil (get : Store) :
    ∀ (ops : List PatchOperation), (∀ op ∈ ops, validateOp get op = []) →
      ∀ init : List PatchConflict,
        ops.foldl (fun acc op => acc ++ validateOp get op) init = init
  | [], _, _ => rfl
  | op :: rest, h, init => by
      have h1 := h op (by simp)
      have h2 : ∀ o ∈ rest, validateOp get o = [] := fun o ho => h o (by simp [ho])
      simp only [List.foldl_cons, h1, List.append_nil]
      exact foldl_conflicts_nil get rest h2 init

/-- C10: for operations whose startLine is undefined and whose target file
exists, validatePatch performs no line-range or old-content check and
records no conflict, so it can report a patch valid that applyPatch then
rejects with a content-mismatch error (demonstrated by the final
existential). -/
theorem c10_validate_skips_lineless (patch : Patch) (get : Store)
    (h1 : ∀ op ∈ patch.operations, op.startLine = none)
    (h2 : ∀ op ∈ patch.operations, get op.filePath ≠ none) :
    (validatePatch patch get).conflicts = [] ∧
    (validatePatch patch get).isValid = true ∧
    (validatePatch patch get).canApply = true ∧
    ∃ (p : Patch) (g : Store), (validatePatch p g).isValid = true ∧
      (applyPatch p g 0).success = false ∧
      ∃ e ∈ (applyPatch p g 0).errors, e.type = PatchErrorType.contentMismatch := by
  have hnil : patch.operations.foldl (fun acc op => acc ++ validateOp get op) [] = [] :=
    foldl_conflicts_nil get patch.operations
      (fun op hop => validateOp_no_startLine get op (h1 op hop) (h2 op hop)) []
  refine ⟨?_, ?_, ?_, c10patch, c10get, by decide, by decide, ?_⟩
  · simpa [validatePatch] using hnil
  · simp [validatePatch, hnil]
  · simp [validatePatch, hnil]
  · exact ⟨{ operationId := "c10op", type := .contentMismatch,
             expected := some ["zzz"], actual := some ["a"] }, by decide, by decide⟩

/-- Witness for C10 at the concrete line-less patch c10patch over c10get. -/
theorem c10_validate_skips_lineless_witness :
    (validatePatch c10patch c10get).conflicts = [] ∧
    (validatePatch c10patch c10get).isValid = true :=
  ⟨(c10_validate_skips_lineless c10patch c10get (by decide) (by decide)).1,
   (c10_validate_skips_lineless c10patch c10get (by decide) (by decide)).2.1⟩

/-- jsIndex at a natural index within bounds is that index. -/
theorem jsIndex_natCast (len n : Nat) (h : n ≤ len) : jsIndex len (n : Int) = n := by
  unfold jsIndex
  rw [if_neg (by omega)]
  simp [h]

/-- jsSlice at natural indices within bounds is the usual drop-then-take. -/
theorem jsSlice_natCast {α : Type} (l : List α) (a b : Nat)
    (ha : a ≤ l.length) (hb : b ≤ l.length) :
    jsSlice l (a : Int) (b : Int) = (l.drop a).take (b - a) := by
  unfold jsSlice
  rw [jsIndex_natCast _ _ ha, jsIndex_natCast _ _ hb]

/-- jsSplice at natural indices within bounds is take, items, then the drop
past the removed range. -/
theorem jsSplice_natCast {α : Type} (l : List α) (a dc : Nat) (items : List α)
    (h : a + dc ≤ l.length) :
    jsSplice l (a : Int) (dc : Int) items = l.take a ++ items ++ l.drop (a + dc) := by
  unfold jsSplice
  rw [jsIndex_natCast _ _ (by omega)]
  simp only [Int.toNat_natCast]
  rw [min_eq_left (by omega)]

/-- Dropping to a present index exposes it as the head. -/
theorem drop_eq_cons_of_get? {α : Type} :
    ∀ (l : List α) (i : Nat) (x : α), l.get? i = some x →
      l.drop i = x :: l.drop (i + 1)
  | [], i, x, h => by simp at h
  | a :: l, 0, x, h => by simp_all
  | a :: l, i + 1, x, h => by
      simpa using drop_eq_cons_of_get? l i x (by simpa using h)

/-- Taking one line at a present index yields exactly that line. -/
theorem take_one_drop_eq_iff {α : Type} (l : List α) (i : Nat) (x : α) :
    (l.drop i).take 1 = [x] ↔ l.get? i = some x := by
  constructor
  · intro h
    cases hg : l.get? i with
    | none =>
        rw [List.get?_eq_none] at hg
        rw [List.drop_eq_nil_of_le hg] at h
        simp at h
    | some y =>
        rw [drop_eq_cons_of_get? l i y hg] at h
        simp at h
        simp [hg, h]
  · intro h
    rw [drop_eq_cons_of_get? l i x h]
    simp

/-- C5 (amended): with old text "foo" recorded at line 2 and live line 2
reading "bar", validatePatch returns exactly one conflict, of kind
content-changed; the conflict always carries the skip and force-apply
resolutions, so canApply is true (not false as claimed), and a relocate
(merge) resolution is offered iff "foo" occurs somewhere in the file. -/
theorem c5_content_changed_conflict (L : List String) (hbar : L.get? 1 = some "bar") :
    (validatePatch c5patch (c5store L)).conflicts.length = 1 ∧
    (∀ c ∈ (validatePatch c5patch (c5store L)).conflicts,
      c.ctype = ConflictType.contentChanged) ∧
    (validatePatch c5patch (c5store L)).canApply = true ∧
    (validatePatch c5patch (c5store L)).isValid = false ∧
    ((∃ i < L.length, L.get? i = some "foo") ↔
      ∃ c ∈ (validatePatch c5patch (c5store L)).conflicts,
        ∃ r ∈ c.resolutions, r.rtype = ResolutionType.merge) := by
  have hlen : 2 ≤ L.length := by
    by_contra h
    push_neg at h
    rw [List.get?_eq_none.mpr (by omega)] at hbar
    exact Option.noConfusion hbar
  have hslice : jsSlice L (((2 : Nat) : Int) - 1) ((2 : Nat) : Int) = ["bar"] := by
    have h1 : (((2 : Nat) : Int) - 1) = ((1 : Nat) : Int) := by norm_num
    rw [h1, jsSlice_natCast L 1 2 (by omega) hlen]
    exact (take_one_drop_eq_iff L 1 "bar").mpr hbar
  have hneq : ¬(jsSlice L (((2 : Nat) : Int) - 1) ((2 : Nat) : Int) = ["foo"]) := by
    rw [hslice]
    decide
  have hcond1 : ¬((2 : Nat) < 1 ∨ (2 : Nat) > L.length + 1) := by omega
  have hop : validateOp (c5store L) c5op =
      [{ operationId := "c5op", filePath := "/f", line := some 2,
         ctype := .contentChanged, currentContent := ["bar"],
         expectedContent := ["foo"],
         resolutions :=
           [{ rtype := ResolutionType.skip, relocateLine := none },
            { rtype := ResolutionType.forceApply, relocateLine := none }] ++
           (match c5find L with
            | some i => [{ rtype := ResolutionType.merge, relocateLine := some (i + 1) }]
            | none => []) }] := by
    have hstore : c5store L c5op.filePath = some L := by
      simp [c5store, c5op]
    unfold validateOp
    rw [hstore]
    simp only [c5op]
    rw [if_neg hcond1]
    simp only [true_or, if_true, Option.getD_none, List.length_singleton]
    rw [if_neg hneq, hslice]
    rfl
  have hconfl : (validatePatch c5patch (c5store L)).conflicts =
      validateOp (c5store L) c5op := by
    simp [validatePatch, c5patch]
  have hfind : ∀ i, i < L.length →
      ((jsSlice L (Int.ofNat i) (Int.ofNat (i + 1)) = ["foo"]) ↔ L.get? i = some "foo") := by
    intro i hi
    have h2 : jsSlice L ((i : Nat) : Int) (((i + 1 : Nat)) : Int) = (L.drop i).take 1 := by
      rw [jsSlice_natCast L i (i + 1) (by omega) (by omega)]
      simp
    simp only [Int.ofNat_eq_natCast]
    rw [h2]
    exact take_one_drop_eq_iff L i "foo"
  refine ⟨?_, ?_, ?_, ?_, ?_⟩
  · rw [hconfl, hop]
    cases c5find L <;> simp
  · rw [hconfl, hop]
    cases c5find L <;> simp
  · simp only [validatePatch]
    rw [show (c5patch.operations.foldl (fun acc op => acc ++ validateOp (c5store L) op) [])
        = validateOp (c5store L) c5op from by simp [c5patch], hop]
    cases c5find L <;> simp
  · simp only [validatePatch]
    rw [show (c5patch.operations.foldl (fun acc op => acc ++ validateOp (c5store L) op) [])
        = validateOp (c5store L) c5op from by simp [c5patch], hop]
    cases c5find L <;> simp
  · rw [hconfl, hop]
    cases hf : c5find L with
    | some i =>
        have hmem := List.mem_of_find?_eq_some hf
        have hp := List.find?_some hf
        have hi' : i < L.length := by
          have := List.mem_range.mp hmem
          omega
        have hi : L.get? i = some "foo" := (hfind i hi').mp (of_decide_eq_true hp)
        constructor
        · intro _
          simp
        · intro _
          exact ⟨i, hi', hi⟩
    | none =>
        constructor
        · intro hex
          obtain ⟨i, hi', hi⟩ := hex
          have hmem : i ∈ List.range (L.length + 1 - 1) := by
            rw [List.mem_range]
            omega
          have := List.find?_eq_none.mp hf i hmem
          exact absurd (decide_eq_true ((hfind i hi').mpr hi)) this
        · intro hex
          obtain ⟨c, hc, r, hr, hrt⟩ := hex
          simp at hc
          subst hc
          simp at hr
          rcases hr with h | h <;> rw [h] at hrt <;> exact ResolutionType.noConfusion hrt

/-- Witness for C5 at live content "a\nbar\nfoo" ("foo" present at line 3). -/
theorem c5_content_changed_conflict_witness :
    (validatePatch c5patch (c5store ["a", "bar", "foo"])).conflicts.length = 1 ∧
    (validatePatch c5patch (c5store ["a", "bar", "foo"])).canApply = true :=
  ⟨(c5_content_changed_conflict ["a", "bar", "foo"] (by decide)).1,
   (c5_content_changed_conflict ["a", "bar", "foo"] (by decide)).2.2.1⟩

/-- addToGroups appends the operation to exactly its file's group. -/
theorem lookupGroup_addToGroups (p : String) (op : PatchOperation) :
    ∀ acc, lookupGroup (addToGroups acc op) p =
      lookupGroup acc p ++ (if op.filePath = p then [op] else [])
  | [] => by
      by_cases h : op.filePath = p <;>
        simp [lookupGroup, addToGroups, List.find?, h]
  | (q, qops) :: rest => by
      by_cases hq : q = op.filePath
      · by_cases hp : q = p
        · subst hp
          simp [lookupGroup, addToGroups, List.find?, hq.symm]
        · have hfp : ¬ (op.filePath = p) := fun h => hp (hq.trans h)
          simp [lookupGroup, addToGroups, List.find?, ← hq, hp, hfp]
      · have haddq : addToGroups ((q, qops) :: rest) op = (q, qops) :: addToGroups rest op := by
          simp [addToGroups, hq]
        rw [haddq]
        by_cases hp : q = p
        · subst hp
          simp [lookupGroup, List.find?, Ne.symm hq]
        · have ih := lookupGroup_addToGroups p op rest
          simp only [lookupGroup, List.find?] at ih ⊢
          simpa [hp] using ih

/-- Folding addToGroups over operations appends each path's matching
operations, in order, to its group. -/
theorem lookupGroup_foldl (p : String) :
    ∀ (l : List PatchOperation) (acc : List (String × List PatchOperation)),
      lookupGroup (l.foldl addToGroups acc) p =
        lookupGroup acc p ++ l.filter (fun op => op.filePath = p)
  | [], acc => by simp
  | op :: rest, acc => by
      have ih := lookupGroup_foldl p rest (addToGroups acc op)
      rw [List.foldl_cons, ih, lookupGroup_addToGroups]
      by_cases h : op.filePath = p <;> simp [h, List.filter_cons]

/-- addToGroups either leaves the key list unchanged (path already grouped)
or appends the new path at the end. -/
theorem keys_addToGroups (op : PatchOperation) :
    ∀ acc, (addToGroups acc op).map Prod.fst =
      if op.filePath ∈ acc.map Prod.fst then acc.map Prod.fst
      else acc.map Prod.fst ++ [op.filePath]
  | [] => by simp [addToGroups]
  | (q, qops) :: rest => by
      by_cases hq : q = op.filePath
      · subst hq
        simp [addToGroups]
      · have ih := keys_addToGroups op rest
        by_cases hmem : op.filePath ∈ rest.map Prod.fst <;>
          simp [addToGroups, if_neg (by simpa [eq_comm] using hq), ih, hmem,
            Ne.symm hq]

/-- A path is a key of the grouping fold iff it already was one or some
operation in the list targets it. -/
theorem mem_keys_foldl (p : String) :
    ∀ (l : List PatchOperation) (acc : List (String × List PatchOperation)),
      p ∈ (l.foldl addToGroups acc).map Prod.fst ↔
        p ∈ acc.map Prod.fst ∨ ∃ op ∈ l, op.filePath = p
  | [], acc => by simp
  | op :: rest, acc => by
      have ih := mem_keys_foldl p rest (addToGroups acc op)
      rw [List.foldl_cons, ih, keys_addToGroups]
      by_cases hmem : op.filePath ∈ acc.map Prod.fst
      · rw [if_pos hmem]
        constructor
        · rintro (h | h)
          · exact Or.inl h
          · obtain ⟨o, ho, hp⟩ := h
            exact Or.inr ⟨o, List.mem_cons_of_mem _ ho, hp⟩
        · rintro (h | ⟨o, ho, hp⟩)
          · exact Or.inl h
          · rcases List.mem_cons.mp ho with rfl | ho
            · exact Or.inl (hp ▸ hmem)
            · exact Or.inr ⟨o, ho, hp⟩
      · rw [if_neg hmem]
        constructor
        · rintro (h | h)
          · rcases List.mem_append.mp h with h | h
            · exact Or.inl h
            · exact Or.inr ⟨op, List.mem_cons_self op rest, (List.mem_singleton.mp h).symm⟩
          · obtain ⟨o, ho, hp⟩ := h
            exact Or.inr ⟨o, List.mem_cons_of_mem _ ho, hp⟩
        · rintro (h | ⟨o, ho, hp⟩)
          · exact Or.inl (List.mem_append.mpr (Or.inl h))
          · rcases List.mem_cons.mp ho with rfl | ho
            · exact Or.inl (List.mem_append.mpr (Or.inr (by simp [hp])))
            · exact Or.inr ⟨o, ho, hp⟩

/-- The existential-pair form of key membership. -/
theorem exists_group_iff_mem_keys (p : String)
    (acc : List (String × List PatchOperation)) :
    (∃ ops, (p, ops) ∈ acc) ↔ p ∈ acc.map Prod.fst := by
  constructor
  · intro h
    obtain ⟨ops, hm⟩ := h
    exact List.mem_map.mpr ⟨(p, ops), hm, rfl⟩
  · intro h
    obtain ⟨⟨q, o⟩, hm, hq⟩ := List.mem_map.mp h
    exact ⟨o, by rwa [show p = q from hq.symm]⟩

/-- With duplicate-free keys, a group member's operations are the lookup. -/
theorem lookupGroup_of_mem {acc : List (String × List PatchOperation)}
    (hnd : (acc.map Prod.fst).Nodup) {p : String} {ops : List PatchOperation}
    (hm : (p, ops) ∈ acc) : lookupGroup acc p = ops := by
  induction acc with
  | nil => simp at hm
  | cons g rest ih =>
      obtain ⟨q, qops⟩ := g
      rcases List.mem_cons.mp hm with heq | hm2
      · injection heq with h1 h2
        subst h1
        subst h2
        simp [lookupGroup, List.find?]
      · have hnd' := List.nodup_cons.mp hnd
        have hq : q ≠ p := by
          intro hqp
          subst hqp
          exact hnd'.1 (List.mem_map.mpr ⟨(q, ops), hm2, rfl⟩)
        simpa [lookupGroup, List.find?, hq] using ih hnd'.2 hm2

/-- The grouping fold preserves duplicate-freedom of keys. -/
theorem nodup_keys_foldl :
    ∀ (l : List PatchOperation) (acc : List (String × List PatchOperation)),
      (acc.map Prod.fst).Nodup → ((l.foldl addToGroups acc).map Prod.fst).Nodup
  | [], _, h => h
  | op :: rest, acc, h => by
      refine nodup_keys_foldl rest (addToGroups acc op) ?_
      rw [keys_addToGroups]
      by_cases hmem : op.filePath ∈ acc.map Prod.fst
      · rwa [if_pos hmem]
      · rw [if_neg hmem, List.nodup_append]
        exact ⟨h, List.nodup_singleton _,
          fun a ha hb => hmem ((List.mem_singleton.mp hb) ▸ ha)⟩

/-- groupByFile sends every targeted path to exactly the in-order sublist of
operations targeting it. -/
theorem groupByFile_mem (l : List PatchOperation) (p : String)
    (h : ∃ op ∈ l, op.filePath = p) :
    (p, l.filter (fun op => op.filePath = p)) ∈ groupByFile l := by
  have hkey : p ∈ (groupByFile l).map Prod.fst :=
    (mem_keys_foldl p l []).mpr (Or.inr h)
  obtain ⟨ops, hm⟩ := (exists_group_iff_mem_keys p (groupByFile l)).mpr hkey
  have hnd : ((groupByFile l).map Prod.fst).Nodup :=
    nodup_keys_foldl l [] (by simp)
  have hops : lookupGroup (groupByFile l) p = ops := lookupGroup_of_mem hnd hm
  have hval : lookupGroup (groupByFile l) p = l.filter (fun op => op.filePath = p) := by
    have := lookupGroup_foldl p l []
    simpa [groupByFile, lookupGroup] using this
  rw [← hval, hops]
  exact hm

/-- An absent file whose group is insert-only gets a computed content (the
inserts applied to the empty content) recorded in the fileContents map. -/
theorem processGroups_write_mem (get : Store) (p : String) (ops : List PatchOperation)
    (hget : get p = none)
    (hins : ops.all (fun op => op.type = OpType.insert) = true) :
    ∀ groups, (p, ops) ∈ groups →
      (p, (applyFileOps [""] ops).1) ∈ (processGroups get groups).fileContents
  | [], h => by simp at h
  | (q, qops) :: rest, h => by
      rcases List.mem_cons.mp h with heq | hmem
      · injection heq with h1 h2
        subst h1
        subst h2
        unfold processGroups
        rw [hget, hins]
        simp
      · have ih := processGroups_write_mem get p ops hget hins rest hmem
        unfold processGroups
        cases hq : get q with
        | none =>
            by_cases hqi : qops.all (fun op => op.type = OpType.insert) = true <;>
              simp [hqi, ih]
        | some content => simp [ih]

/-- C9 (amended): when getFileContent(path) is null and every operation of
the patch targeting that path is an insert, applyPatch treats the file's
content as the empty string and applies the inserts to it; provided no
operation elsewhere in the patch fails, the patch succeeds and the resulting
content is written via setFileContent, creating the file. -/
theorem c9_insert_only_missing_file (patch : Patch) (get : Store) (now : Nat) (path : String)
    (h1 : get path = none)
    (h2 : patch.operations.filter (fun op => op.filePath = path) ≠ [])
    (h3 : ∀ op ∈ patch.operations.filter (fun op => op.filePath = path),
        op.type = OpType.insert)
    (h4 : (applyPatch patch get now).errors = []) :
    (applyPatch patch get now).success = true ∧
    (path, (applyFileOps [""] (patch.operations.filter (fun op => op.filePath = path))).1)
      ∈ (applyPatch patch get now).writes := by
  have hex : ∃ op ∈ patch.operations, op.filePath = path := by
    obtain ⟨op, hop⟩ := List.exists_mem_of_ne_nil _ h2
    have hmf := List.mem_filter.mp hop
    exact ⟨op, hmf.1, of_decide_eq_true hmf.2⟩
  have hgrp := groupByFile_mem patch.operations path hex
  have hacc : (processGroups get (groupByFile patch.operations)).errors = [] := by
    by_contra hNe
    simp only [applyPatch, hNe, if_false] at h4
  have hall : (patch.operations.filter (fun op => op.filePath = path)).all
      (fun op => op.type = OpType.insert) = true := by
    rw [List.all_eq_true]
    intro op hop
    exact decide_eq_true (h3 op hop)
  constructor
  · simp [applyPatch, hacc]
  · have hmem := processGroups_write_mem get path _ h1 hall (groupByFile patch.operations) hgrp
    simpa [applyPatch, hacc] using hmem

/-- Witness for C9 at the single-insert patch on the absent file /a over the
empty store. -/
theorem c9_insert_only_missing_file_witness :
    (applyPatch c9patchGood c9get 0).success = true ∧
    ("/a", (applyFileOps [""]
        (c9patchGood.operations.filter (fun op => op.filePath = "/a"))).1)
      ∈ (applyPatch c9patchGood c9get 0).writes :=
  c9_insert_only_missing_file c9patchGood c9get 0 "/a"
    (by decide) (by decide) (by decide) (by decide)

/-- One undo step over a plain-edit entry pops it, restores the old content
and pushes the entry onto the redo stack. -/
theorem undo_plain_step (e : HistoryEntry) (rest rs : List HistoryEntry)
    (mx : Nat) (st : Store) (he : PlainEdit e) :
    undo { undoStack := e :: rest, redoStack := rs, maxHistorySize := mx,
           currentGroupId := none } st
      = ({ undoStack := rest, redoStack := e :: rs, maxHistorySize := mx,
           currentGroupId := none },
         setStore st (e.filePath.getD "") (e.oldContent.getD []), [e]) := by
  obtain ⟨h1, h2, hp, ho, _⟩ := he
  obtain ⟨p, hp'⟩ := Option.isSome_iff_exists.mp hp
  obtain ⟨o, ho'⟩ := Option.isSome_iff_exists.mp ho
  simp only [undo, h2, applyUndoEntry, h1, hp', ho', List.foldl_cons, List.foldl_nil,
    List.reverse_cons, List.reverse_nil, List.nil_append, List.singleton_append,
    Option.getD_some]
  rfl

/-- One redo step over a plain-edit entry pops it, re-applies the new
content and pushes the entry back onto the undo stack. -/
theorem redo_plain_step (e : HistoryEntry) (rest us : List HistoryEntry)
    (mx : Nat) (st : Store) (he : PlainEdit e) :
    redo { undoStack := us, redoStack := e :: rest, maxHistorySize := mx,
           currentGroupId := none } st
      = ({ undoStack := e :: us, redoStack := rest, maxHistorySize := mx,
           currentGroupId := none },
         setStore st (e.filePath.getD "") (e.newContent.getD []), [e]) := by
  obtain ⟨h1, h2, hp, _, hn⟩ := he
  obtain ⟨p, hp'⟩ := Option.isSome_iff_exists.mp hp
  obtain ⟨n, hn'⟩ := Option.isSome_iff_exists.mp hn
  simp only [redo, h2, applyRedoEntry, h1, hp', hn', List.foldl_cons, List.foldl_nil,
    List.reverse_cons, List.reverse_nil, List.nil_append, List.singleton_append,
    Option.getD_some]
  rfl

/-- Undoing a whole stack of plain edits empties the undo stack, moves the
entries (reversed) onto the redo stack and replays their old contents in
stack order. -/
theorem iterateUndo_plain :
    ∀ (stk rs : List HistoryEntry) (mx : Nat) (st : Store),
      (∀ e ∈ stk, PlainEdit e) →
      iterateUndo stk.length
          ({ undoStack := stk, redoStack := rs, maxHistorySize := mx,
             currentGroupId := none }, st)
        = ({ undoStack := [], redoStack := stk.reverse ++ rs, maxHistorySize := mx,
             currentGroupId := none }, writeOlds stk st)
  | [], rs, mx, st, _ => by simp [iterateUndo, writeOlds]
  | e :: rest, rs, mx, st, h => by
      have he := h e (List.mem_cons_self e rest)
      have ih := iterateUndo_plain rest (e :: rs) mx
        (setStore st (e.filePath.getD "") (e.oldContent.getD []))
        (fun x hx => h x (List.mem_cons_of_mem e hx))
      simp only [List.length_cons, iterateUndo, undo_plain_step e rest rs mx st he]
      rw [ih]
      simp [writeOlds]

/-- Redoing a whole stack of plain edits empties the redo stack, moves the
entries (reversed) onto the undo stack and replays their new contents in
stack order. -/
theorem iterateRedo_plain :
    ∀ (rstk us : List HistoryEntry) (mx : Nat) (st : Store),
      (∀ e ∈ rstk, PlainEdit e) →
      iterateRedo rstk.length
          ({ undoStack := us, redoStack := rstk, maxHistorySize := mx,
             currentGroupId := none }, st)
        = ({ undoStack := rstk.reverse ++ us, redoStack := [], maxHistorySize := mx,
             currentGroupId := none }, writeNews rstk st)
  | [], us, mx, st, _ => by simp [iterateRedo, writeNews]
  | e :: rest, us, mx, st, h => by
      have he := h e (List.mem_cons_self e rest)
      have ih := iterateRedo_plain rest (e :: us) mx
        (setStore st (e.filePath.getD "") (e.newContent.getD []))
        (fun x hx => h x (List.mem_cons_of_mem e hx))
      simp only [List.length_cons, iterateRedo, redo_plain_step e rest us mx st he]
      rw [ih]
      simp [writeNews]

/-- A write-replay fold leaves untouched paths alone. -/
theorem writeFold_untouched (g : HistoryEntry → List String) :
    ∀ (entries : List HistoryEntry) (st : Store) (p : String),
      (∀ e ∈ entries, e.filePath.getD "" ≠ p) →
      (entries.foldl (fun s e => setStore s (e.filePath.getD "") (g e)) st) p = st p
  | [], _, _, _ => rfl
  | e :: rest, st, p, h => by
      have ih := writeFold_untouched g rest
        (setStore st (e.filePath.getD "") (g e)) p
        (fun x hx => h x (List.mem_cons_of_mem e hx))
      rw [List.foldl_cons, ih, setStore, if_neg]
      intro hq
      exact h e (List.mem_cons_self e rest) hq.symm

/-- At a touched path, a write-replay fold's result does not depend on the
initial store (the last write wins). -/
theorem writeFold_touched (g : HistoryEntry → List String) :
    ∀ (entries : List HistoryEntry) (st st' : Store) (p : String),
      (∃ e ∈ entries, e.filePath.getD "" = p) →
      (entries.foldl (fun s e => setStore s (e.filePath.getD "") (g e)) st) p
        = (entries.foldl (fun s e => setStore s (e.filePath.getD "") (g e)) st') p
  | [], _, _, _, h => by simp at h
  | e :: rest, st, st', p, h => by
      by_cases hrest : ∃ x ∈ rest, x.filePath.getD "" = p
      · rw [List.foldl_cons, List.foldl_cons]
        exact writeFold_touched g rest _ _ p hrest
      · push_neg at hrest
        have hep : e.filePath.getD "" = p := by
          obtain ⟨x, hx, hxp⟩ := h
          rcases List.mem_cons.mp hx with rfl | hx
          · exact hxp
          · exact absurd hxp (hrest x hx)
        rw [List.foldl_cons, List.foldl_cons,
          writeFold_untouched g rest _ p (fun x hx => hrest x hx),
          writeFold_untouched g rest _ p (fun x hx => hrest x hx)]
        simp [setStore, hep]

/-- C6 (amended): for a history of N ungrouped direct-edit mutations,
starting from the post-mutation store (the entries' new contents replayed
over any base store), N undo calls followed by N redo calls restore exactly
the post-mutation store.  (For patch-application entries the claimed
symmetry fails; see the counterexample.) -/
theorem c6_undo_redo_edits (entries : List HistoryEntry) (S0 : Store) (mx : Nat)
    (hplain : ∀ e ∈ entries, PlainEdit e) :
    ∀ p, (iterateRedo entries.length
            (iterateUndo entries.length
              ({ undoStack := entries.reverse, redoStack := [], maxHistorySize := mx,
                 currentGroupId := none }, writeNews entries S0))).2 p
          = writeNews entries S0 p := by
  intro p
  have hplainR : ∀ e ∈ entries.reverse, PlainEdit e :=
    fun e he => hplain e (List.mem_reverse.mp he)
  have h1 := iterateUndo_plain entries.reverse [] mx (writeNews entries S0) hplainR
  rw [List.length_reverse] at h1
  simp only [List.reverse_reverse, List.append_nil] at h1
  rw [h1]
  have h2 := iterateRedo_plain entries [] mx
    (writeOlds entries.reverse (writeNews entries S0)) hplain
  rw [h2]
  show writeNews entries (writeOlds entries.reverse (writeNews entries S0)) p
      = writeNews entries S0 p
  by_cases htouch : ∃ e ∈ entries, e.filePath.getD "" = p
  · exact writeFold_touched _ entries _ S0 p htouch
  · push_neg at htouch
    have huntouch : ∀ e ∈ entries, e.filePath.getD "" ≠ p := htouch
    have huntouchR : ∀ e ∈ entries.reverse, e.filePath.getD "" ≠ p :=
      fun e he => huntouch e (List.mem_reverse.mp he)
    rw [show (writeNews entries
        (writeOlds entries.reverse (writeNews entries S0))) p
      = (writeOlds entries.reverse (writeNews entries S0)) p from
        writeFold_untouched _ entries _ p huntouch]
    exact writeFold_untouched _ entries.reverse _ p huntouchR

/-- Witness for C6 over the two-edit history [c6e1, c6e2]. -/
theorem c6_undo_redo_edits_witness :
    (iterateRedo 2
        (iterateUndo 2
          ({ undoStack := [c6e2, c6e1], redoStack := [], maxHistorySize := 10,
             currentGroupId := none }, writeNews [c6e1, c6e2] c6store0))).2 "/f"
      = writeNews [c6e1, c6e2] c6store0 "/f" :=
  c6_undo_redo_edits [c6e1, c6e2] c6store0 10 (by decide) "/f"

/-- applyOpsFold over a snoc splits into the fold and one final step. -/
theorem applyOpsFold_concat (l : List PatchOperation) (op : PatchOperation)
    (c : List String) :
    applyOpsFold (l ++ [op]) c =
      (let r := applyOpsFold l c
       let r2 := applyOperation r.1 op
       if r2.success then (r2.content, r.2) else (r.1, r.2 ++ r2.error.toList)) := by
  simp [applyOpsFold, List.foldl_append]

/-- applyEdit on a content decomposed around the operation's exact range
validates and splices the items into that range. -/
theorem applyEdit_exact (P O R items : List String) (op : PatchOperation)
    (hs : op.startLine = some (P.length + 1))
    (he : op.endLine = some (P.length + O.length))
    (hold : op.oldContent = O) :
    applyEdit (P ++ O ++ R) op items =
      { success := true, content := P ++ items ++ R, error := none } := by
  have hlen : (P ++ O ++ R).length = P.length + O.length + R.length := by
    simp
    omega
  have harg1 : ((((P.length + 1 : Nat)) : Int)) - 1 = ((P.length : Nat) : Int) := by
    push_cast
    ring
  have htake : (P ++ O ++ R).take P.length = P := by
    rw [List.append_assoc]
    exact List.take_left P (O ++ R)
  have hdropPO : (P ++ O ++ R).drop (P.length + O.length) = R := by
    rw [show P.length + O.length = (P ++ O).length from by simp]
    exact List.drop_left (P ++ O) R
  have hslice : jsSlice (P ++ O ++ R) (((P.length + 1 : Nat) : Int) - 1)
      ((P.length + O.length : Nat) : Int) = O := by
    rw [harg1, jsSlice_natCast _ _ _ (by rw [hlen]; omega) (by rw [hlen]; omega)]
    rw [List.append_assoc, List.drop_left]
    rw [show P.length + O.length - P.length = O.length from by omega, List.take_left]
  have hsplice : jsSplice (P ++ O ++ R) (((P.length + 1 : Nat) : Int) - 1)
      (((P.length + O.length : Nat) : Int) - ((((P.length + 1 : Nat)) : Int) - 1)) items
      = P ++ items ++ R := by
    rw [harg1]
    rw [show (((P.length + O.length : Nat)) : Int) - ((P.length : Nat) : Int)
        = ((O.length : Nat) : Int) from by push_cast; ring]
    rw [jsSplice_natCast _ _ _ _ (by rw [hlen]; omega)]
    rw [htake, hdropPO]
  unfold applyEdit
  rw [hs, he, hold]
  simp only [Option.getD_some]
  rw [hslice, if_pos rfl, hsplice]

/-- Applying a decomposition-certified operation list in reverse list order
(the descending start-line order) transforms the original suffix into the
target suffix, error-free, under any common prefix. -/
theorem applyOpsFold_rev (orig modL : List String) {ops : List PatchOperation}
    {i j : Nat} (h : OpsDecomp orig modL ops i j) :
    ∀ P : List String, P.length = i →
      applyOpsFold ops.reverse (P ++ orig.drop i) = (P ++ modL.drop j, []) := by
  induction h with
  | nil =>
      intro P hP
      simp [applyOpsFold]
  | skip hx hy hprev ih =>
      rename_i ops i j x
      intro P hP
      have h1 : P ++ orig.drop i = (P ++ [x]) ++ orig.drop (i + 1) := by
        rw [drop_eq_cons_of_get? orig i x hx]
        simp
      have h2 : P ++ modL.drop j = (P ++ [x]) ++ modL.drop (j + 1) := by
        rw [drop_eq_cons_of_get? modL j x hy]
        simp
      rw [h1, h2]
      exact ih (P ++ [x]) (by simp [hP])
  | del op ht hs he hd hb hold hprev ih =>
      rename_i ops i j d
      intro P hP
      have hOlen : ((orig.drop i).take d).length = d := by
        rw [List.length_take, List.length_drop]
        omega
      have hsplit : orig.drop i = (orig.drop i).take d ++ orig.drop (i + d) := by
        rw [show orig.drop (i + d) = (orig.drop i).drop d from by
          rw [List.drop_drop, Nat.add_comm], List.take_append_drop]
      have hContent : P ++ orig.drop i = (P ++ (orig.drop i).take d) ++ orig.drop (i + d) := by
        rw [List.append_assoc]
        exact congrArg (P ++ ·) hsplit
      have ihP : applyOpsFold ops.reverse (P ++ orig.drop i)
          = ((P ++ (orig.drop i).take d) ++ modL.drop j, []) := by
        have hih := ih (P ++ (orig.drop i).take d) (by simp [hP, hOlen])
        rw [hContent]
        exact hih
      have happ : applyOperation (P ++ ((orig.drop i).take d ++ modL.drop j)) op
          = { success := true, content := P ++ [] ++ modL.drop j, error := none } := by
        have hae := applyEdit_exact P ((orig.drop i).take d) (modL.drop j) [] op
          (by rw [hP]; exact hs) (by rw [hOlen, hP]; exact he) hold
        rw [← List.append_assoc]
        rw [show applyOperation (P ++ (orig.drop i).take d ++ modL.drop j) op
            = applyEdit (P ++ (orig.drop i).take d ++ modL.drop j) op [] from by
          simp [applyOperation, ht]]
        exact hae
      rw [List.reverse_cons, applyOpsFold_concat, ihP]
      simp [happ]
  | rep op ht hs he hd hb hold hde hbe hnew hprev ih =>
      rename_i ops i j d e
      intro P hP
      have hOlen : ((orig.drop i).take d).length = d := by
        rw [List.length_take, List.length_drop]
        omega
      have hsplit : orig.drop i = (orig.drop i).take d ++ orig.drop (i + d) := by
        rw [show orig.drop (i + d) = (orig.drop i).drop d from by
          rw [List.drop_drop, Nat.add_comm], List.take_append_drop]
      have hsplitM : modL.drop j = (modL.drop j).take e ++ modL.drop (j + e) := by
        rw [show modL.drop (j + e) = (modL.drop j).drop e from by
          rw [List.drop_drop, Nat.add_comm], List.take_append_drop]
      have hContent : P ++ orig.drop i = (P ++ (orig.drop i).take d) ++ orig.drop (i + d) := by
        rw [List.append_assoc]
        exact congrArg (P ++ ·) hsplit
      have ihP : applyOpsFold ops.reverse (P ++ orig.drop i)
          = ((P ++ (orig.drop i).take d) ++ modL.drop (j + e), []) := by
        have hih := ih (P ++ (orig.drop i).take d) (by simp [hP, hOlen])
        rw [hContent]
        exact hih
      have happ : applyOperation (P ++ ((orig.drop i).take d ++ modL.drop (j + e))) op
          = { success := true, content := P ++ (modL.drop j).take e ++ modL.drop (j + e),
              error := none } := by
        have hae := applyEdit_exact P ((orig.drop i).take d) (modL.drop (j + e))
          ((modL.drop j).take e) op
          (by rw [hP]; exact hs) (by rw [hOlen, hP]; exact he) hold
        rw [← List.append_assoc]
        rw [show applyOperation (P ++ (orig.drop i).take d ++ modL.drop (j + e)) op
            = applyEdit (P ++ (orig.drop i).take d ++ modL.drop (j + e)) op op.newContent
          from by simp [applyOperation, ht], hnew]
        exact hae
      rw [List.reverse_cons, applyOpsFold_concat, ihP]
      rw [show P ++ modL.drop j = P ++ (modL.drop j).take e ++ modL.drop (j + e) from by
        rw [List.append_assoc, ← hsplitM]]
      simp [happ]

/-- Inserting an element whose key dominates no element of the list appends
it at the end. -/
theorem orderedInsertDesc_append (a : PatchOperation) :
    ∀ m, (∀ b ∈ m, ¬ opKey b ≤ opKey a) → orderedInsertDesc a m = m ++ [a]
  | [], _ => rfl
  | b :: m, h => by
      rw [orderedInsertDesc, if_neg (h b (List.mem_cons_self b m)),
        orderedInsertDesc_append a m (fun x hx => h x (List.mem_cons_of_mem _ hx))]
      simp

/-- The descending stable sort of a strictly ascending list is its
reverse. -/
theorem sortOpsDesc_strictAsc :
    ∀ l, List.Pairwise (fun x y => opKey x < opKey y) l → sortOpsDesc l = l.reverse
  | [], _ => rfl
  | a :: l, h => by
      have hp := List.pairwise_cons.mp h
      rw [sortOpsDesc, sortOpsDesc_strictAsc l hp.2,
        orderedInsertDesc_append a l.reverse
          (fun b hb => not_le.mpr (hp.1 b (List.mem_reverse.mp hb)))]
      simp

/-- orderedInsertDesc permutes the cons. -/
theorem orderedInsertDesc_perm (a : PatchOperation) :
    ∀ m, List.Perm (orderedInsertDesc a m) (a :: m)
  | [] => List.Perm.refl _
  | b :: m => by
      rw [orderedInsertDesc]
      by_cases h : opKey b ≤ opKey a
      · rw [if_pos h]
      · rw [if_neg h]
        exact ((orderedInsertDesc_perm a m).cons b).trans (List.Perm.swap a b m)

/-- sortOpsDesc permutes its input. -/
theorem sortOpsDesc_perm : ∀ l, List.Perm (sortOpsDesc l) l
  | [] => List.Perm.refl _
  | a :: l => by
      rw [sortOpsDesc]
      exact (orderedInsertDesc_perm a (sortOpsDesc l)).trans ((sortOpsDesc_perm l).cons a)

/-- orderedInsertDesc preserves descending sortedness. -/
theorem orderedInsertDesc_sorted (a : PatchOperation) :
    ∀ m, List.Pairwise (fun x y => opKey y ≤ opKey x) m →
      List.Pairwise (fun x y => opKey y ≤ opKey x) (orderedInsertDesc a m)
  | [], _ => List.pairwise_singleton _ _
  | b :: m, h => by
      have hp := List.pairwise_cons.mp h
      rw [orderedInsertDesc]
      by_cases hba : opKey b ≤ opKey a
      · rw [if_pos hba]
        refine List.pairwise_cons.mpr ⟨?_, h⟩
        intro y hy
        rcases List.mem_cons.mp hy with rfl | hy
        · exact hba
        · exact le_trans (hp.1 y hy) hba
      · rw [if_neg hba]
        refine List.pairwise_cons.mpr ⟨?_, orderedInsertDesc_sorted a m hp.2⟩
        intro y hy
        rcases (orderedInsertDesc_perm a m).mem_iff.mp hy with hmem
        rcases List.mem_cons.mp hmem with rfl | hy2
        · exact le_of_lt (not_le.mp hba)
        · exact hp.1 y hy2

/-- sortOpsDesc sorts descending by key. -/
theorem sortOpsDesc_sorted :
    ∀ l, List.Pairwise (fun x y => opKey y ≤ opKey x) (sortOpsDesc l)
  | [] => List.Pairwise.nil
  | a :: l => orderedInsertDesc_sorted a (sortOpsDesc l) (sortOpsDesc_sorted l)

/-- Two strictly descending permutations of each other are equal. -/
theorem sorted_desc_unique :
    ∀ {l₁ l₂ : List PatchOperation}, List.Perm l₁ l₂ →
      List.Pairwise (fun x y => opKey y < opKey x) l₁ →
      List.Pairwise (fun x y => opKey y < opKey x) l₂ → l₁ = l₂
  | [], l₂, hperm, _, _ => (hperm.nil_eq).symm ▸ rfl
  | a :: t₁, l₂, hperm, h₁, h₂ => by
      cases l₂ with
      | nil => exact absurd hperm.symm (by simp)
      | cons b t₂ =>
          have hp₁ := List.pairwise_cons.mp h₁
          have hp₂ := List.pairwise_cons.mp h₂
          by_cases hab : a = b
          · subst hab
            have htails := hperm.cons_inv
            rw [sorted_desc_unique htails hp₁.2 hp₂.2]
          · exfalso
            have ha : a ∈ b :: t₂ := hperm.mem_iff.mp (List.mem_cons_self a t₁)
            have hb : b ∈ a :: t₁ := hperm.symm.mem_iff.mp (List.mem_cons_self b t₂)
            have ha2 : a ∈ t₂ := by
              rcases List.mem_cons.mp ha with rfl | h
              · exact absurd rfl hab
              · exact h
            have hb2 : b ∈ t₁ := by
              rcases List.mem_cons.mp hb with rfl | h
              · exact absurd rfl (Ne.symm hab)
              · exact h
            exact absurd (hp₂.1 a ha2) (not_lt.mpr (le_of_lt (hp₁.1 b hb2)))

/-- Descending-sorted with duplicate-free keys is strictly descending. -/
theorem pairwise_strict_of_sorted_nodup {l : List PatchOperation}
    (h1 : List.Pairwise (fun x y => opKey y ≤ opKey x) l)
    (h2 : (l.map opKey).Nodup) :
    List.Pairwise (fun x y => opKey y < opKey x) l := by
  have h2' : List.Pairwise (fun x y => opKey x ≠ opKey y) l := List.pairwise_map.mp h2
  exact (h1.and h2').imp (fun hxy => lt_of_le_of_ne hxy.1 (fun he => hxy.2 he.symm))

/-- sortOpsDesc of any permutation of a strictly ascending list is that
list's reverse. -/
theorem sortOpsDesc_eq_of_perm {l m : List PatchOperation} (hperm : List.Perm l m)
    (hm : List.Pairwise (fun x y => opKey x < opKey y) m) :
    sortOpsDesc l = m.reverse := by
  have h1 : List.Perm (sortOpsDesc l) m.reverse :=
    (sortOpsDesc_perm l).trans (hperm.trans (List.reverse_perm m).symm)
  have hmnodup : (m.map opKey).Nodup :=
    List.pairwise_map.mpr (hm.imp (fun hxy => ne_of_lt hxy))
  have hnodup : ((sortOpsDesc l).map opKey).Nodup := by
    have hrev : (m.reverse.map opKey).Nodup := by
      rw [List.map_reverse, List.nodup_reverse]
      exact hmnodup
    exact ((h1.map opKey).nodup_iff).mpr hrev
  have hstrict1 := pairwise_strict_of_sorted_nodup (sortOpsDesc_sorted l) hnodup
  have hstrict2 : List.Pairwise (fun x y => opKey y < opKey x) m.reverse := by
    rw [List.pairwise_reverse]
    exact hm
  exact sorted_desc_unique h1 hstrict1 hstrict2

/-- The LCS backtracking result is a common subsequence of the two prefixes
it has walked. -/
theorem lcsBack_sublist (a b : List String) :
    ∀ f i j, i ≤ a.length → j ≤ b.length →
      List.Sublist (lcsBack a b f i j) (a.take i) ∧
        List.Sublist (lcsBack a b f i j) (b.take j)
  | 0, _, _, _, _ => by simp [lcsBack]
  | _ + 1, 0, _, _, _ => by simp [lcsBack]
  | _ + 1, _ + 1, 0, _, _ => by simp [lcsBack]
  | f + 1, i + 1, j + 1, hi, hj => by
      rw [lcsBack]
      by_cases hm : a.get? i = b.get? j
      · rw [if_pos hm]
        obtain ⟨h1, h2⟩ := lcsBack_sublist a b f i j (by omega) (by omega)
        have hia : i < a.length := by omega
        have hjb : j < b.length := by omega
        have hx : a.get? i = some (a.get ⟨i, hia⟩) := List.get?_eq_get hia
        have hbx : b.get? j = some (a.get ⟨i, hia⟩) := hm ▸ hx
        have hx2 : a[i]? = some (a.get ⟨i, hia⟩) := by
          rw [← List.get?_eq_getElem?]
          exact hx
        have hbx2 : b[j]? = some (a.get ⟨i, hia⟩) := by
          rw [← List.get?_eq_getElem?]
          exact hbx
        have hgd : a.getD i "" = a.get ⟨i, hia⟩ := by
          simp [List.getD, hx2]
        constructor
        · rw [List.take_succ, hx2, hgd]
          simp only [Option.toList_some]
          exact h1.append (List.Sublist.refl _)
        · rw [List.take_succ, hbx2, hgd]
          simp only [Option.toList_some]
          exact h2.append (List.Sublist.refl _)
      · rw [if_neg hm]
        have htsa : List.Sublist (a.take i) (a.take (i + 1)) := by
          rw [List.take_succ]
          exact List.sublist_append_left _ _
        have htsb : List.Sublist (b.take j) (b.take (j + 1)) := by
          rw [List.take_succ]
          exact List.sublist_append_left _ _
        by_cases hd : lcsDp a b i (j + 1) > lcsDp a b (i + 1) j
        · rw [if_pos hd]
          obtain ⟨h1, h2⟩ := lcsBack_sublist a b f i (j + 1) (by omega) hj
          exact ⟨h1.trans htsa, h2⟩
        · rw [if_neg hd]
          obtain ⟨h1, h2⟩ := lcsBack_sublist a b f (i + 1) j hi (by omega)
          exact ⟨h1, h2.trans htsb⟩

/-- computeLCS returns a common subsequence of its two arguments. -/
theorem computeLCS_sublist (a b : List String) :
    List.Sublist (computeLCS a b) a ∧ List.Sublist (computeLCS a b) b := by
  have h := lcsBack_sublist a b (a.length + b.length) a.length b.length le_rfl le_rfl
  rwa [List.take_length, List.take_length] at h

/-- advanceIdx never moves backwards. -/
theorem advanceIdx_ge (cond : Nat → Bool) : ∀ f x, x ≤ advanceIdx cond f x
  | 0, _ => le_rfl
  | f + 1, x => by
      rw [advanceIdx]
      by_cases h : cond x
      · rw [if_pos h]
        exact le_trans (Nat.le_succ x) (advanceIdx_ge cond f (x + 1))
      · rw [if_neg h]

/-- advanceIdx strictly advances when the condition holds at the start and
there is fuel. -/
theorem advanceIdx_progress (cond : Nat → Bool) :
    ∀ f x, cond x = true → 1 ≤ f → x + 1 ≤ advanceIdx cond f x
  | 0, _, _, hf => absurd hf (by omega)
  | f + 1, x, h, _ => by
      rw [advanceIdx, if_pos h]
      exact advanceIdx_ge cond f (x + 1)

/-- advanceIdx stays below a bound that the condition enforces. -/
theorem advanceIdx_le (cond : Nat → Bool) (B : Nat)
    (hB : ∀ y, cond y = true → y < B) :
    ∀ f x, x ≤ B → advanceIdx cond f x ≤ B
  | 0, _, hx => hx
  | f + 1, x, hx => by
      rw [advanceIdx]
      by_cases h : cond x
      · rw [if_pos h]
        exact advanceIdx_le cond B hB f (x + 1) (hB x h)
      · rw [if_neg h]
        exact hx

/-- With enough fuel, advanceIdx stops at the first index failing the
condition: the condition is false at the result and true on the whole
interval walked. -/
theorem advanceIdx_spec (cond : Nat → Bool) (B : Nat)
    (hB : ∀ y, cond y = true → y < B) :
    ∀ f x, B ≤ f + x →
      cond (advanceIdx cond f x) = false ∧
        ∀ y, x ≤ y → y < advanceIdx cond f x → cond y = true
  | 0, x, hf => by
      rw [advanceIdx]
      refine ⟨?_, fun y h1 h2 => absurd h2 (by omega)⟩
      by_cases h : cond x
      · exact absurd (hB x h) (by omega)
      · simpa using h
  | f + 1, x, hf => by
      rw [advanceIdx]
      by_cases h : cond x
      · rw [if_pos h]
        obtain ⟨h1, h2⟩ := advanceIdx_spec cond B hB f (x + 1) (by omega)
        refine ⟨h1, fun y hy1 hy2 => ?_⟩
        rcases eq_or_lt_of_le hy1 with rfl | hlt
        · exact h
        · exact h2 y (by omega) hy2
      · rw [if_neg h]
        exact ⟨by simpa using h, fun y h1 h2 => absurd h2 (by omega)⟩

/-- A sublist headed by y survives dropping a prefix containing no y. -/
theorem cons_sublist_drop {α : Type} {y : α} {t : List α} :
    ∀ (m : Nat) {l : List α}, List.Sublist (y :: t) l →
      (∀ p, p < m → l.get? p ≠ some y) → List.Sublist (y :: t) (l.drop m)
  | 0, _, h, _ => h
  | m + 1, l, h, hp => by
      cases l with
      | nil => exact absurd h (by simp)
      | cons c l2 =>
          have hcy : ¬ c = y := by
            intro he
            exact hp 0 (Nat.succ_pos m) (by simp [he])
          have h2 : List.Sublist (y :: t) l2 := by
            cases h with
            | cons _ h2 => exact h2
            | cons₂ h2 => exact absurd rfl hcy
          rw [List.drop_succ_cons]
          exact cons_sublist_drop m h2 (fun p hpm hg => hp (p + 1) (by omega) (by simpa using hg))

/-- When the current LCS line occurs in the remaining lines, the skip loop
stops exactly at its first occurrence, preserving the sublist invariant. -/
theorem advance_reach {lines lcs : List String} {k x : Nat} {y : String}
    (hy : lcs.get? k = some y)
    (hs : List.Sublist (y :: lcs.drop (k + 1)) (lines.drop x)) :
    x ≤ advanceIdx (skipCond lines lcs k) lines.length x ∧
      advanceIdx (skipCond lines lcs k) lines.length x < lines.length ∧
      lines.get? (advanceIdx (skipCond lines lcs k) lines.length x) = some y ∧
      List.Sublist (y :: lcs.drop (k + 1))
        (lines.drop (advanceIdx (skipCond lines lcs k) lines.length x)) := by
  have hB : ∀ z, skipCond lines lcs k z = true → z < lines.length := by
    intro z hz
    simp only [skipCond, Bool.and_eq_true, decide_eq_true_eq] at hz
    exact hz.1
  have hkL : k < lcs.length := by
    by_contra hknot
    rw [List.get?_eq_none.mpr (by omega)] at hy
    exact absurd hy (by simp)
  obtain ⟨hfalse, htrue⟩ := advanceIdx_spec (skipCond lines lcs k) lines.length hB
    lines.length x (by omega)
  have hge := advanceIdx_ge (skipCond lines lcs k) lines.length x
  have hsr : List.Sublist (y :: lcs.drop (k + 1))
      (lines.drop (advanceIdx (skipCond lines lcs k) lines.length x)) := by
    have hdd : (lines.drop x).drop (advanceIdx (skipCond lines lcs k) lines.length x - x)
        = lines.drop (advanceIdx (skipCond lines lcs k) lines.length x) := by
      rw [List.drop_drop]
      congr 1
      omega
    rw [← hdd]
    refine cons_sublist_drop _ hs ?_
    intro p hp hg
    have hc := htrue (x + p) (by omega) (by omega)
    simp only [skipCond, Bool.and_eq_true, Bool.or_eq_true, decide_eq_true_eq] at hc
    rcases hc.2 with hk2 | hne
    · omega
    · rw [List.get?_eq_getElem?, List.getElem?_drop, ← List.get?_eq_getElem?] at hg
      exact hne (hg.trans hy.symm)
  have hlt : advanceIdx (skipCond lines lcs k) lines.length x < lines.length := by
    have hlen := hsr.length_le
    rw [List.length_drop] at hlen
    simp at hlen
    omega
  refine ⟨hge, hlt, ?_, hsr⟩
  by_contra hne
  have : skipCond lines lcs k (advanceIdx (skipCond lines lcs k) lines.length x) = true := by
    simp only [skipCond, Bool.and_eq_true, Bool.or_eq_true, decide_eq_true_eq]
    refine ⟨hlt, Or.inr ?_⟩
    rw [hy]
    exact hne
  rw [hfalse] at this
  exact absurd this (by simp)

/-- When the LCS is exhausted, the skip loop runs to the end of the lines. -/
theorem advance_exhaust {lines lcs : List String} {k x : Nat}
    (hk : lcs.length ≤ k) (hx : x ≤ lines.length) :
    advanceIdx (skipCond lines lcs k) lines.length x = lines.length := by
  have hB : ∀ z, skipCond lines lcs k z = true → z < lines.length := by
    intro z hz
    simp only [skipCond, Bool.and_eq_true, decide_eq_true_eq] at hz
    exact hz.1
  obtain ⟨hfalse, _⟩ := advanceIdx_spec (skipCond lines lcs k) lines.length hB
    lines.length x (by omega)
  have hle := advanceIdx_le (skipCond lines lcs k) lines.length hB lines.length x hx
  by_contra hne
  have hlt : advanceIdx (skipCond lines lcs k) lines.length x < lines.length := by omega
  have : skipCond lines lcs k (advanceIdx (skipCond lines lcs k) lines.length x) = true := by
    simp only [skipCond, Bool.and_eq_true, Bool.or_eq_true, decide_eq_true_eq]
    exact ⟨hlt, Or.inl hk⟩
  rw [hfalse] at this
  exact absurd this (by simp)

/-- The walk of computeLineDiff yields a decomposition certificate whenever
the remaining LCS is a common subsequence of both remainders and the
resulting change list contains no insert region. -/
theorem walkDiff_decomp (orig modL lcs : List String) :
    ∀ f i j k,
      List.Sublist (lcs.drop k) (orig.drop i) →
      List.Sublist (lcs.drop k) (modL.drop j) →
      i ≤ orig.length → j ≤ modL.length →
      orig.length + modL.length ≤ f + i + j →
      (∀ c ∈ walkDiff orig modL lcs f i j k, c.kind ≠ ChangeKind.insert) →
      ChDecomp orig modL (walkDiff orig modL lcs f i j k) i j
  | 0, i, j, k, _, _, hi, hj, hf, _ => by
      have h1 : i = orig.length := by omega
      have h2 : j = modL.length := by omega
      subst h1
      subst h2
      exact ChDecomp.nil
  | f + 1, i, j, k, hso, hsm, hi, hj, hf, hni => by
      rw [walkDiff] at hni ⊢
      by_cases hc1 : i < orig.length ∨ j < modL.length
      case neg =>
        rw [if_neg hc1] at hni ⊢
        have h1 : i = orig.length := by omega
        have h2 : j = modL.length := by omega
        subst h1
        subst h2
        exact ChDecomp.nil
      case pos =>
      rw [if_pos hc1] at hni ⊢
      by_cases hc2 : k < lcs.length ∧ i < orig.length ∧ orig.get? i = lcs.get? k
      · rw [if_pos hc2] at hni ⊢
        obtain ⟨hk, hiL, hoi⟩ := hc2
        have hy : lcs.get? k = some (lcs.get ⟨k, hk⟩) := List.get?_eq_get hk
        by_cases hc3 : j < modL.length ∧ modL.get? j = lcs.get? k
        · rw [if_pos hc3] at hni ⊢
          obtain ⟨hjL, hmj⟩ := hc3
          have hoy : orig.get? i = some (lcs.get ⟨k, hk⟩) := hoi.trans hy
          have hmy : modL.get? j = some (lcs.get ⟨k, hk⟩) := hmj.trans hy
          have hso2 : List.Sublist (lcs.drop (k + 1)) (orig.drop (i + 1)) := by
            rw [drop_eq_cons_of_get? lcs k _ hy, drop_eq_cons_of_get? orig i _ hoy] at hso
            exact List.cons_sublist_cons.mp hso
          have hsm2 : List.Sublist (lcs.drop (k + 1)) (modL.drop (j + 1)) := by
            rw [drop_eq_cons_of_get? lcs k _ hy, drop_eq_cons_of_get? modL j _ hmy] at hsm
            exact List.cons_sublist_cons.mp hsm
          exact ChDecomp.skip hoy hmy
            (walkDiff_decomp orig modL lcs f (i + 1) (j + 1) (k + 1) hso2 hsm2
              (by omega) (by omega) (by omega) hni)
        · rw [if_neg hc3] at hni ⊢
          exact absurd rfl (hni _ (List.mem_cons_self _ _))
      · rw [if_neg hc2] at hni ⊢
        by_cases hc3 : k < lcs.length ∧ j < modL.length ∧ modL.get? j = lcs.get? k
        · rw [if_pos hc3] at hni ⊢
          obtain ⟨hk, hjL, hmj⟩ := hc3
          have hy : lcs.get? k = some (lcs.get ⟨k, hk⟩) := List.get?_eq_get hk
          have hso2 : List.Sublist (lcs.get ⟨k, hk⟩ :: lcs.drop (k + 1)) (orig.drop i) := by
            rw [← drop_eq_cons_of_get? lcs k _ hy]
            exact hso
          obtain ⟨hge, hlt, hgr, hsr⟩ := advance_reach hy hso2
          have hiL : i < orig.length := by
            have hl := hso2.length_le
            rw [List.length_drop] at hl
            simp only [List.length_cons] at hl
            omega
          have hne : ¬ orig.get? i = lcs.get? k := fun he => hc2 ⟨hk, hiL, he⟩
          have hcondi : skipCond orig lcs k i = true := by
            simp only [skipCond, Bool.and_eq_true, Bool.or_eq_true, decide_eq_true_eq]
            exact ⟨hiL, Or.inr hne⟩
          have hprog : i + 1 ≤ advanceIdx (skipCond orig lcs k) orig.length i :=
            advanceIdx_progress _ _ i hcondi (by omega)
          set r := advanceIdx (skipCond orig lcs k) orig.length i with hr
          have hso3 : List.Sublist (lcs.drop k) (orig.drop r) := by
            rw [drop_eq_cons_of_get? lcs k _ hy]
            exact hsr
          have hni2 : ∀ c ∈ walkDiff orig modL lcs f r j k, c.kind ≠ ChangeKind.insert :=
            fun c hc => hni c (List.mem_cons_of_mem _ hc)
          have htail : ChDecomp orig modL (walkDiff orig modL lcs f r j k) r j :=
            walkDiff_decomp orig modL lcs f r j k hso3 hsm (by omega) hj (by omega) hni2
          rw [show r = i + (r - i) from by omega]
          refine ChDecomp.del (by omega) (by omega) ?_
          rw [show i + (r - i) = r from by omega]
          exact htail
        · rw [if_neg hc3] at hni ⊢
          by_cases hk : k < lcs.length
          · have hy : lcs.get? k = some (lcs.get ⟨k, hk⟩) := List.get?_eq_get hk
            have hso2 : List.Sublist (lcs.get ⟨k, hk⟩ :: lcs.drop (k + 1)) (orig.drop i) := by
              rw [← drop_eq_cons_of_get? lcs k _ hy]
              exact hso
            have hsm2 : List.Sublist (lcs.get ⟨k, hk⟩ :: lcs.drop (k + 1)) (modL.drop j) := by
              rw [← drop_eq_cons_of_get? lcs k _ hy]
              exact hsm
            obtain ⟨hgeO, hltO, hgrO, hsrO⟩ := advance_reach hy hso2
            obtain ⟨hgeM, hltM, hgrM, hsrM⟩ := advance_reach hy hsm2
            have hiL : i < orig.length := by
              have hl := hso2.length_le
              rw [List.length_drop] at hl
              simp only [List.length_cons] at hl
              omega
            have hjL : j < modL.length := by
              have hl := hsm2.length_le
              rw [List.length_drop] at hl
              simp only [List.length_cons] at hl
              omega
            have hneO : ¬ orig.get? i = lcs.get? k := fun he => hc2 ⟨hk, hiL, he⟩
            have hneM : ¬ modL.get? j = lcs.get? k := fun he => hc3 ⟨hk, hjL, he⟩
            have hcondO : skipCond orig lcs k i = true := by
              simp only [skipCond, Bool.and_eq_true, Bool.or_eq_true, decide_eq_true_eq]
              exact ⟨hiL, Or.inr hneO⟩
            have hcondM : skipCond modL lcs k j = true := by
              simp only [skipCond, Bool.and_eq_true, Bool.or_eq_true, decide_eq_true_eq]
              exact ⟨hjL, Or.inr hneM⟩
            have hprogO : i + 1 ≤ advanceIdx (skipCond orig lcs k) orig.length i :=
              advanceIdx_progress _ _ i hcondO (by omega)
            have hprogM : j + 1 ≤ advanceIdx (skipCond modL lcs k) modL.length j :=
              advanceIdx_progress _ _ j hcondM (by omega)
            set rO := advanceIdx (skipCond orig lcs k) orig.length i with hrO
            set rM := advanceIdx (skipCond modL lcs k) modL.length j with hrM
            rw [if_pos (show i < rO ∨ j < rM from Or.inl (by omega))] at hni ⊢
            rw [if_pos (show i < rO ∧ j < rM from ⟨by omega, by omega⟩)] at hni ⊢
            have hso3 : List.Sublist (lcs.drop k) (orig.drop rO) := by
              rw [drop_eq_cons_of_get? lcs k _ hy]
              exact hsrO
            have hsm3 : List.Sublist (lcs.drop k) (modL.drop rM) := by
              rw [drop_eq_cons_of_get? lcs k _ hy]
              exact hsrM
            have hni2 : ∀ c ∈ walkDiff orig modL lcs f rO rM k, c.kind ≠ ChangeKind.insert :=
              fun c hc => hni c (List.mem_cons_of_mem _ hc)
            have htail : ChDecomp orig modL (walkDiff orig modL lcs f rO rM k) rO rM :=
              walkDiff_decomp orig modL lcs f rO rM k hso3 hsm3 (by omega) (by omega)
                (by omega) hni2
            rw [show rO = i + (rO - i) from by omega, show rM = j + (rM - j) from by omega]
            refine ChDecomp.rep (by omega) (by omega) (by omega) (by omega) ?_
            rw [show i + (rO - i) = rO from by omega, show j + (rM - j) = rM from by omega]
            exact htail
          · push_neg at hk
            have hEO : advanceIdx (skipCond orig lcs k) orig.length i = orig.length :=
              advance_exhaust hk hi
            have hEM : advanceIdx (skipCond modL lcs k) modL.length j = modL.length :=
              advance_exhaust hk hj
            rw [hEO, hEM] at hni ⊢
            rw [if_pos hc1] at hni ⊢
            have hnil : lcs.drop k = [] := List.drop_eq_nil_of_le hk
            have htail : ChDecomp orig modL
                (walkDiff orig modL lcs f orig.length modL.length k)
                orig.length modL.length :=
              walkDiff_decomp orig modL lcs f orig.length modL.length k
                (by rw [hnil]; exact List.nil_sublist _)
                (by rw [hnil]; exact List.nil_sublist _)
                le_rfl le_rfl (by omega)
                (fun c hc => hni c (List.mem_cons_of_mem _ hc))
            by_cases hio : i < orig.length
            · by_cases hjo : j < modL.length
              · rw [if_pos (show i < orig.length ∧ j < modL.length from ⟨hio, hjo⟩)] at hni ⊢
                rw [show orig.length = i + (orig.length - i) from by omega,
                  show modL.length = j + (modL.length - j) from by omega]
                refine ChDecomp.rep (by omega) (by omega) (by omega) (by omega) ?_
                rw [show i + (orig.length - i) = orig.length from by omega,
                  show j + (modL.length - j) = modL.length from by omega]
                exact htail
              · have hje : j = modL.length := by omega
                subst hje
                rw [if_neg (show ¬ (i < orig.length ∧ modL.length < modL.length) from by omega),
                  if_pos hio] at hni ⊢
                rw [show orig.length = i + (orig.length - i) from by omega]
                refine ChDecomp.del (by omega) (by omega) ?_
                rw [show i + (orig.length - i) = orig.length from by omega]
                exact htail
            · have hjo : j < modL.length := by
                rcases hc1 with h | h
                · omega
                · exact h
              rw [if_neg (show ¬ (i < orig.length ∧ j < modL.length) from by omega),
                if_neg hio] at hni
              exact absurd rfl (hni _ (List.mem_cons_self _ _))

/-- The foldl of mergeStep over a reversed accumulator equals mergeRec. -/
theorem foldl_mergeStep_reverse :
    ∀ (l : List LineDiffChange) (prev : LineDiffChange) (acc : List LineDiffChange),
      (l.foldl mergeStep (prev :: acc)).reverse = acc.reverse ++ mergeRec prev l
  | [], prev, acc => by simp [mergeRec]
  | curr :: l, prev, acc => by
      rw [List.foldl_cons, mergeRec]
      by_cases h : prev.kind = curr.kind ∧ prev.oldEnd = curr.oldStart - 1 ∧
          prev.newEnd = curr.newStart - 1
      · rw [if_pos h]
        have hstep : mergeStep (prev :: acc) curr
            = { prev with oldEnd := curr.oldEnd, newEnd := curr.newEnd } :: acc := by
          simp only [mergeStep]
          rw [if_pos h]
        rw [hstep, foldl_mergeStep_reverse l _ acc]
      · rw [if_neg h]
        have hstep : mergeStep (prev :: acc) curr = curr :: prev :: acc := by
          simp only [mergeStep]
          rw [if_neg h]
        rw [hstep, foldl_mergeStep_reverse l curr (prev :: acc)]
        simp

/-- mergeAdjacentChanges agrees with the recursive merge formulation. -/
theorem mergeAdjacentChanges_eq : ∀ cs, mergeAdjacentChanges cs = mergeRecL cs
  | [] => rfl
  | c :: l => by
      unfold mergeAdjacentChanges
      rw [List.foldl_cons]
      have h0 : mergeStep [] c = [c] := rfl
      rw [h0, foldl_mergeStep_reverse l c []]
      simp [mergeRecL]

/-- A decomposition certificate survives prepending a run of common lines. -/
theorem skips_chdecomp {orig modL : List String} {i j i2 j2 : Nat}
    (h : Skips orig modL i j i2 j2) {cs : List LineDiffChange}
    (h2 : ChDecomp orig modL cs i2 j2) : ChDecomp orig modL cs i j := by
  induction h with
  | refl => exact h2
  | step hx hy _ ih => exact ChDecomp.skip hx hy (ih h2)

/-- Inversion of a decomposition certificate with a head change: a run of
common lines, then the head change at a determined position, then a
certificate for the tail. -/
theorem chdecomp_cons_inv {orig modL : List String} {cs2 : List LineDiffChange}
    {i j : Nat} (h : ChDecomp orig modL cs2 i j) :
    ∀ {ch : LineDiffChange} {cs : List LineDiffChange}, cs2 = ch :: cs →
      ∃ i0 j0, Skips orig modL i j i0 j0 ∧
        ((∃ d, 1 ≤ d ∧ i0 + d ≤ orig.length ∧
            ch = { kind := .delete, oldStart := i0 + 1, oldEnd := i0 + d,
                   newStart := j0 + 1, newEnd := j0 } ∧
            ChDecomp orig modL cs (i0 + d) j0) ∨
         (∃ d e, 1 ≤ d ∧ i0 + d ≤ orig.length ∧ 1 ≤ e ∧ j0 + e ≤ modL.length ∧
            ch = { kind := .replace, oldStart := i0 + 1, oldEnd := i0 + d,
                   newStart := j0 + 1, newEnd := j0 + e } ∧
            ChDecomp orig modL cs (i0 + d) (j0 + e))) := by
  induction h with
  | nil =>
      intro ch cs heq
      exact absurd heq (by simp)
  | skip hx hy hprev ih =>
      intro ch cs heq
      obtain ⟨i0, j0, hsk, hrest⟩ := ih heq
      exact ⟨i0, j0, Skips.step hx hy hsk, hrest⟩
  | del hd hb hprev ih =>
      rename_i cs3 i3 j3 d
      intro ch cs heq
      injection heq with h1 h2
      subst h1
      subst h2
      exact ⟨i3, j3, Skips.refl, Or.inl ⟨d, hd, hb, rfl, hprev⟩⟩
  | rep hd hb he hbe hprev ih =>
      rename_i cs3 i3 j3 d e
      intro ch cs heq
      injection heq with h1 h2
      subst h1
      subst h2
      exact ⟨i3, j3, Skips.refl, Or.inr ⟨d, e, hd, hb, he, hbe, rfl, hprev⟩⟩

/-- Merging adjacent same-kind regions preserves the decomposition
certificate. -/
theorem mergeRec_decomp {orig modL : List String} :
    ∀ (n : Nat) (cs : List LineDiffChange), cs.length ≤ n →
      ∀ {i j : Nat}, ChDecomp orig modL cs i j →
        ChDecomp orig modL (mergeRecL cs) i j
  | _, [], _, _, _, h => h
  | _, [_], _, _, _, h => h
  | 0, _ :: _ :: _, hn, _, _, _ => absurd hn (by simp)
  | n + 1, c1 :: c2 :: rest, hn, i, j, h => by
      show ChDecomp orig modL (mergeRec c1 (c2 :: rest)) i j
      rw [mergeRec]
      obtain ⟨i0, j0, hsk, hcase⟩ := chdecomp_cons_inv h rfl
      by_cases hcond : c1.kind = c2.kind ∧ c1.oldEnd = c2.oldStart - 1 ∧
          c1.newEnd = c2.newStart - 1
      · rw [if_pos hcond]
        rcases hcase with ⟨d, hd, hb, hc1eq, htail⟩ | ⟨d, e, hd, hb, he, hbe, hc1eq, htail⟩
        · obtain ⟨i1, j1, hsk2, hcase2⟩ := chdecomp_cons_inv htail rfl
          rcases hcase2 with ⟨d2, hd2, hb2, hc2eq, htail2⟩ |
            ⟨d2, e2, hd2, hb2, he2, hbe2, hc2eq, htail2⟩
          · subst hc1eq
            subst hc2eq
            have hadj1 : i0 + d = i1 + 1 - 1 := hcond.2.1
            have hi1 : i1 = i0 + d := by omega
            subst hi1
            have hnew : ChDecomp orig modL
                ({ kind := ChangeKind.delete, oldStart := i0 + 1, oldEnd := i0 + d + d2,
                   newStart := j0 + 1, newEnd := j1 } :: rest) i0 j0 := by
              have hadj2 : j0 = j1 + 1 - 1 := hcond.2.2
              have hj1 : j1 = j0 := by omega
              subst hj1
              rw [Nat.add_assoc]
              exact ChDecomp.del (by omega) (by omega)
                (by rw [← Nat.add_assoc]; exact htail2)
            exact mergeRec_decomp n _ (by simp at hn ⊢; omega) (skips_chdecomp hsk hnew)
          · subst hc1eq
            subst hc2eq
            exact absurd (show ChangeKind.delete = ChangeKind.replace from hcond.1) (by simp)
        · obtain ⟨i1, j1, hsk2, hcase2⟩ := chdecomp_cons_inv htail rfl
          rcases hcase2 with ⟨d2, hd2, hb2, hc2eq, htail2⟩ |
            ⟨d2, e2, hd2, hb2, he2, hbe2, hc2eq, htail2⟩
          · subst hc1eq
            subst hc2eq
            exact absurd (show ChangeKind.replace = ChangeKind.delete from hcond.1) (by simp)
          · subst hc1eq
            subst hc2eq
            have hadj1 : i0 + d = i1 + 1 - 1 := hcond.2.1
            have hadj2 : j0 + e = j1 + 1 - 1 := hcond.2.2
            have hi1 : i1 = i0 + d := by omega
            have hj1 : j1 = j0 + e := by omega
            subst hi1
            subst hj1
            have hnew : ChDecomp orig modL
                ({ kind := ChangeKind.replace, oldStart := i0 + 1, oldEnd := i0 + d + d2,
                   newStart := j0 + 1, newEnd := j0 + e + e2 } :: rest) i0 j0 := by
              rw [Nat.add_assoc, Nat.add_assoc]
              exact ChDecomp.rep (by omega) (by omega) (by omega) (by omega)
                (by rw [← Nat.add_assoc, ← Nat.add_assoc]; exact htail2)
            exact mergeRec_decomp n _ (by simp at hn ⊢; omega) (skips_chdecomp hsk hnew)
      · rw [if_neg hcond]
        rcases hcase with ⟨d, hd, hb, hc1eq, htail⟩ | ⟨d, e, hd, hb, he, hbe, hc1eq, htail⟩
        · subst hc1eq
          have htail2 : ChDecomp orig modL (mergeRecL (c2 :: rest)) (i0 + d) j0 :=
            mergeRec_decomp n (c2 :: rest) (by simp at hn ⊢; omega) htail
          exact skips_chdecomp hsk (ChDecomp.del hd hb htail2)
        · subst hc1eq
          have htail2 : ChDecomp orig modL (mergeRecL (c2 :: rest)) (i0 + d) (j0 + e) :=
            mergeRec_decomp n (c2 :: rest) (by simp at hn ⊢; omega) htail
          exact skips_chdecomp hsk (ChDecomp.rep hd hb he hbe htail2)

/-- If the merged change list has no insert region, neither had the input. -/
theorem mergeRec_noInsert :
    ∀ (n : Nat) (cs : List LineDiffChange), cs.length ≤ n →
      (∀ c ∈ mergeRecL cs, c.kind ≠ ChangeKind.insert) →
      ∀ c ∈ cs, c.kind ≠ ChangeKind.insert
  | _, [], _, _, c, hc => absurd hc (by simp)
  | _, [c0], _, h, c, hc => by
      rcases List.mem_singleton.mp hc with rfl
      exact h c (List.mem_singleton.mpr rfl)
  | 0, _ :: _ :: _, hn, _, _, _ => absurd hn (by simp)
  | n + 1, c1 :: c2 :: rest, hn, h, c, hc => by
      have hm : mergeRecL (c1 :: c2 :: rest) = mergeRec c1 (c2 :: rest) := rfl
      rw [hm, mergeRec] at h
      by_cases hcond : c1.kind = c2.kind ∧ c1.oldEnd = c2.oldStart - 1 ∧
          c1.newEnd = c2.newStart - 1
      · rw [if_pos hcond] at h
        have h2 := mergeRec_noInsert n
          ({ c1 with oldEnd := c2.oldEnd, newEnd := c2.newEnd } :: rest)
          (by simp at hn ⊢; omega) h
        have hk1 : c1.kind ≠ ChangeKind.insert :=
          h2 { c1 with oldEnd := c2.oldEnd, newEnd := c2.newEnd }
            (List.mem_cons_self _ _)
        rcases List.mem_cons.mp hc with rfl | hc2
        · exact hk1
        · rcases List.mem_cons.mp hc2 with rfl | hc3
          · rw [← hcond.1]
            exact hk1
          · exact h2 c (List.mem_cons_of_mem _ hc3)
      · rw [if_neg hcond] at h
        have hk1 := h c1 (List.mem_cons_self _ _)
        have h2 := mergeRec_noInsert n (c2 :: rest) (by simp at hn ⊢; omega)
          (fun x hx => h x (List.mem_cons_of_mem _ hx))
        rcases List.mem_cons.mp hc with rfl | hc2
        · exact hk1
        · exact h2 c hc2

/-- computeLineDiff yields a decomposition certificate from position (0, 0)
whenever its output has no insert region. -/
theorem computeLineDiff_decomp (orig modL : List String)
    (hni : ∀ c ∈ computeLineDiff orig modL, c.kind ≠ ChangeKind.insert) :
    ChDecomp orig modL (computeLineDiff orig modL) 0 0 := by
  unfold computeLineDiff at hni ⊢
  rw [mergeAdjacentChanges_eq] at hni ⊢
  have hwni : ∀ c ∈ walkDiff orig modL (computeLCS orig modL)
      (orig.length + modL.length) 0 0 0, c.kind ≠ ChangeKind.insert :=
    mergeRec_noInsert _ _ le_rfl hni
  have hw := walkDiff_decomp orig modL (computeLCS orig modL)
    (orig.length + modL.length) 0 0 0
    (by simpa using (computeLCS_sublist orig modL).1)
    (by simpa using (computeLCS_sublist orig modL).2)
    (by omega) (by omega) (by omega) hwni
  exact mergeRec_decomp _ _ le_rfl hw

/-- Every operation certified from position i has start line above i. -/
theorem opsDecomp_key_lb {orig modL : List String} {ops : List PatchOperation}
    {i j : Nat} (h : OpsDecomp orig modL ops i j) :
    ∀ op ∈ ops, (i : Int) < opKey op := by
  induction h with
  | nil => intro op hop; exact absurd hop (by simp)
  | skip _ _ _ ih =>
      intro op hop
      have := ih op hop
      push_cast at this ⊢
      omega
  | del op2 ht hs he hd hb hold _ ih =>
      intro op hop
      rcases List.mem_cons.mp hop with rfl | hmem
      · rw [opKey, hs]
        simp only [Option.getD_some]
        push_cast
        omega
      · have := ih op hmem
        push_cast at this ⊢
        omega
  | rep op2 ht hs he hd hb hold hde hbe hnew _ ih =>
      intro op hop
      rcases List.mem_cons.mp hop with rfl | hmem
      · rw [opKey, hs]
        simp only [Option.getD_some]
        push_cast
        omega
      · have := ih op hmem
        push_cast at this ⊢
        omega

/-- Certified operation lists are strictly ascending in start line. -/
theorem opsDecomp_pairwise {orig modL : List String} {ops : List PatchOperation}
    {i j : Nat} (h : OpsDecomp orig modL ops i j) :
    List.Pairwise (fun x y => opKey x < opKey y) ops := by
  induction h with
  | nil => exact List.Pairwise.nil
  | skip _ _ _ ih => exact ih
  | del op2 ht hs he hd hb hold hprev ih =>
      refine List.pairwise_cons.mpr ⟨?_, ih⟩
      intro b hb2
      have h1 := opsDecomp_key_lb hprev b hb2
      rw [opKey, hs]
      simp only [Option.getD_some] at h1 ⊢
      push_cast at h1 ⊢
      omega
  | rep op2 ht hs he hd hb hold hde hbe hnew hprev ih =>
      refine List.pairwise_cons.mpr ⟨?_, ih⟩
      intro b hb2
      have h1 := opsDecomp_key_lb hprev b hb2
      rw [opKey, hs]
      simp only [Option.getD_some] at h1 ⊢
      push_cast at h1 ⊢
      omega

/-- Applying a certified operation list the way applyPatch does (descending
start-line order) transforms the original content into the target,
error-free. -/
theorem ops_decomp_apply {orig modL : List String} {ops : List PatchOperation}
    (h : OpsDecomp orig modL ops 0 0) :
    applyFileOps orig ops = (modL, []) := by
  unfold applyFileOps
  rw [sortOpsDesc_strictAsc ops (opsDecomp_pairwise h)]
  have h2 := applyOpsFold_rev orig modL h [] rfl
  simpa using h2

/-- The operations generateLinePatches builds from a change-decomposition
certificate are themselves certified. -/
theorem chdecomp_ops {orig modL : List String} (fp : String)
    {cs : List LineDiffChange} {i j : Nat}
    (h : ChDecomp orig modL cs i j) :
    OpsDecomp orig modL (cs.map (opOfChange fp orig modL)) i j := by
  induction h with
  | nil => exact OpsDecomp.nil
  | skip hx hy _ ih => exact OpsDecomp.skip hx hy ih
  | del hd hb hprev ih =>
      rename_i cs3 i3 j3 d
      rw [List.map_cons]
      refine OpsDecomp.del _ rfl rfl rfl hd hb ?_ ih
      show jsSlice orig (((i3 + 1 : Nat) : Int) - 1) ((i3 + d : Nat) : Int)
        = (orig.drop i3).take d
      rw [show (((i3 + 1 : Nat) : Int)) - 1 = ((i3 : Nat) : Int) from by push_cast; ring]
      rw [jsSlice_natCast orig i3 (i3 + d) (by omega) hb]
      rw [show i3 + d - i3 = d from by omega]
  | rep hd hb he hbe hprev ih =>
      rename_i cs3 i3 j3 d e
      rw [List.map_cons]
      refine OpsDecomp.rep _ rfl rfl rfl hd hb ?_ he hbe ?_ ih
      · show jsSlice orig (((i3 + 1 : Nat) : Int) - 1) ((i3 + d : Nat) : Int)
          = (orig.drop i3).take d
        rw [show (((i3 + 1 : Nat) : Int)) - 1 = ((i3 : Nat) : Int) from by push_cast; ring]
        rw [jsSlice_natCast orig i3 (i3 + d) (by omega) hb]
        rw [show i3 + d - i3 = d from by omega]
      · show jsSlice modL (((j3 + 1 : Nat) : Int) - 1) ((j3 + e : Nat) : Int)
          = (modL.drop j3).take e
        rw [show (((j3 + 1 : Nat) : Int)) - 1 = ((j3 : Nat) : Int) from by push_cast; ring]
        rw [jsSlice_natCast modL j3 (j3 + e) (by omega) hbe]
        rw [show j3 + e - j3 = e from by omega]

/-- C4: for every pair (original, modified) such that the operations
produced by generateLinePatches contain no insert operation, applying them
to the original in descending start-line order — exactly as applyPatch does —
succeeds with no error and reproduces the modified content exactly.  (The
claimed law for all diffs fails when inserts are present, because insert
operations carry modified-file coordinates; see the counterexample.) -/
theorem c4_diff_apply_no_insert (fp : String) (original modified : List String)
    (h : ∀ op ∈ generateLinePatches fp original modified, op.type ≠ OpType.insert) :
    applyFileOps original (generateLinePatches fp original modified)
      = (modified, []) := by
  have hni : ∀ c ∈ computeLineDiff original modified, c.kind ≠ ChangeKind.insert := by
    intro c hc hk
    have hop := h (opOfChange fp original modified c)
      (List.mem_map_of_mem _ hc)
    apply hop
    simp [opOfChange, hk]
  exact ops_decomp_apply (chdecomp_ops fp (computeLineDiff_decomp original modified hni))

/-- reverseOp keeps the file path. -/
theorem reverseOp_filePath (op : PatchOperation) : (reverseOp op).filePath = op.filePath :=
  rfl

/-- Filtering the reversed mapped operations of a reverse patch is the
reversed map of the filtered originals. -/
theorem filter_map_reverse (p : String) :
    ∀ l : List PatchOperation,
      ((l.map reverseOp).reverse).filter (fun op => op.filePath = p)
        = ((l.filter (fun op => op.filePath = p)).map reverseOp).reverse
  | [] => rfl
  | op :: rest => by
      have ih := filter_map_reverse p rest
      simp only [List.map_cons, List.reverse_cons, List.filter_append, List.filter_cons,
        List.filter_nil, reverseOp_filePath]
      by_cases hp : op.filePath = p
      · simp [hp, ih]
      · simp [hp, ih]

/-- A uniform-replace certificate forces equal content lengths. -/
theorem repDecomp_len {orig modL : List String} {ops : List PatchOperation} {i : Nat}
    (h : RepDecomp orig modL ops i) : orig.length = modL.length := by
  induction h with
  | nil hlen => exact hlen
  | skip _ _ _ ih => exact ih
  | rep op _ _ _ _ _ _ _ _ ih => exact ih

/-- A uniform-replace certificate is an operation decomposition certificate
with equal walk positions. -/
theorem repDecomp_opsDecomp {orig modL : List String} {ops : List PatchOperation} {i : Nat}
    (h : RepDecomp orig modL ops i) : OpsDecomp orig modL ops i i := by
  induction h with
  | nil hlen =>
      nth_rewrite 2 [hlen]
      exact OpsDecomp.nil
  | skip hx hy _ ih => exact OpsDecomp.skip hx hy ih
  | rep op ht hs he hd hb hold hnew hprev ih =>
      exact OpsDecomp.rep op ht hs he hd hb hold hd
        (by rw [← repDecomp_len hprev]; exact hb) hnew ih

/-- Reversing each operation swaps the two contents in the certificate. -/
theorem repDecomp_symm {orig modL : List String} {ops : List PatchOperation} {i : Nat}
    (h : RepDecomp orig modL ops i) : RepDecomp modL orig (ops.map reverseOp) i := by
  induction h with
  | nil hlen =>
      rw [List.map_nil, hlen]
      exact RepDecomp.nil hlen.symm
  | skip hx hy _ ih => exact RepDecomp.skip hy hx ih
  | rep op ht hs he hd hb hold hnew hprev ih =>
      rw [List.map_cons]
      refine RepDecomp.rep (reverseOp op) ?_ hs he hd ?_ hnew hold ih
      · show reverseOpType op.type = OpType.replace
        rw [ht]
        rfl
      · rw [← repDecomp_len hprev]
        exact hb

/-- Any arrangement of a certified uniform-replace group applies exactly as
applyPatch does (sorted descending), successfully producing the target
content. -/
theorem uniform_apply {L modL : List String} {G A : List PatchOperation}
    (hperm : List.Perm G A) (h : RepDecomp L modL A 0) :
    applyFileOps L G = (modL, []) := by
  have hod := repDecomp_opsDecomp h
  unfold applyFileOps
  rw [sortOpsDesc_eq_of_perm hperm (opsDecomp_pairwise hod)]
  have h2 := applyOpsFold_rev L modL hod [] rfl
  simpa using h2

/-- Every group produced by groupByFile is exactly the in-order nonempty
sublist of operations targeting its path. -/
theorem groupByFile_sound (l : List PatchOperation) :
    ∀ pr ∈ groupByFile l,
      pr.2 = l.filter (fun op => op.filePath = pr.1) ∧ pr.2 ≠ [] := by
  intro pr hpr
  have hnd : ((groupByFile l).map Prod.fst).Nodup := nodup_keys_foldl l [] (by simp)
  obtain ⟨p, ops⟩ := pr
  have hlk : lookupGroup (groupByFile l) p = ops := lookupGroup_of_mem hnd hpr
  have hval : lookupGroup (groupByFile l) p = l.filter (fun op => op.filePath = p) := by
    have h1 := lookupGroup_foldl p l []
    simpa [groupByFile, lookupGroup] using h1
  have heq : ops = l.filter (fun op => op.filePath = p) := by rw [← hlk, hval]
  refine ⟨heq, ?_⟩
  have hk : p ∈ (groupByFile l).map Prod.fst := List.mem_map.mpr ⟨(p, ops), hpr, rfl⟩
  have hex := (mem_keys_foldl p l []).mp (by simpa [groupByFile] using hk)
  rcases hex with hin | hex
  · simp at hin
  · obtain ⟨op, hop, hpath⟩ := hex
    rw [heq]
    exact List.ne_nil_of_mem (List.mem_filter.mpr ⟨hop, by simpa using hpath⟩)

/-- When every group's file exists and applies without error, processGroups
collects no error and records each group's computed content in order. -/
theorem processGroups_clean (get : Store) :
    ∀ groups : List (String × List PatchOperation),
      (∀ pr ∈ groups, ∃ L, get pr.1 = some L ∧ (applyFileOps L pr.2).2 = []) →
      (processGroups get groups).errors = [] ∧
      (processGroups get groups).fileContents
        = groups.map (fun pr => (pr.1, (applyFileOps ((get pr.1).getD []) pr.2).1))
  | [], _ => ⟨rfl, rfl⟩
  | (p, ops) :: rest, h => by
      obtain ⟨L, hL, hclean⟩ := h (p, ops) (List.mem_cons_self _ _)
      obtain ⟨ih1, ih2⟩ := processGroups_clean get rest
        (fun pr hpr => h pr (List.mem_cons_of_mem _ hpr))
      unfold processGroups
      rw [hL]
      constructor
      · show (applyFileOps L ops).2 ++ (processGroups get rest).errors = []
        rw [hclean, ih1]
        rfl
      · show (p, (applyFileOps L ops).1) :: (processGroups get rest).fileContents
          = ((p, ops) :: rest).map
              (fun pr => (pr.1, (applyFileOps ((get pr.1).getD []) pr.2).1))
        rw [List.map_cons, ih2, hL]
        rfl

/-- A store read is unchanged by writes that all touch other paths. -/
theorem storeAfterWrites_untouched :
    ∀ (ws : List (String × List String)) (get : Store) (q : String),
      (∀ w ∈ ws, w.1 ≠ q) → storeAfterWrites get ws q = get q
  | [], _, _, _ => rfl
  | w :: rest, get, q, h => by
      show storeAfterWrites (fun r => if r = w.1 then some w.2 else get r) rest q = get q
      rw [storeAfterWrites_untouched rest _ q (fun x hx => h x (List.mem_cons_of_mem _ hx))]
      rw [if_neg (fun he => (h w (List.mem_cons_self _ _)) he.symm)]

/-- A store read after duplicate-free writes returns the written content. -/
theorem storeAfterWrites_touched :
    ∀ (ws : List (String × List String)) (get : Store) (q : String) (c : List String),
      (q, c) ∈ ws → (ws.map Prod.fst).Nodup →
      storeAfterWrites get ws q = some c
  | [], _, _, _, hm, _ => absurd hm (by simp)
  | w :: rest, get, q, c, hm, hnd => by
      have hnd2 := List.nodup_cons.mp hnd
      rcases List.mem_cons.mp hm with heq | hmem
      · subst heq
        show storeAfterWrites (fun r => if r = q then some c else get r) rest q = some c
        have hnt : ∀ x ∈ rest, x.1 ≠ q := by
          intro x hx he
          apply hnd2.1
          show q ∈ rest.map Prod.fst
          rw [← he]
          exact List.mem_map_of_mem Prod.fst hx
        rw [storeAfterWrites_untouched rest _ q hnt]
        rw [if_pos rfl]
      · exact storeAfterWrites_touched rest _ q c hmem hnd2.2

/-- applyPatch over a patch whose every targeted file exists and applies
error-free: success, no error, untargeted files unchanged, and each
targeted file's post-write content is the computed one. -/
theorem applyPatch_uniform (Q : Patch) (s : Store) (now : Nat)
    (hQ : ∀ path, Q.operations.filter (fun op => op.filePath = path) ≠ [] →
      ∃ L, s path = some L ∧
        (applyFileOps L (Q.operations.filter (fun op => op.filePath = path))).2 = []) :
    (applyPatch Q s now).success = true ∧
    (applyPatch Q s now).errors = [] ∧
    (∀ q, Q.operations.filter (fun op => op.filePath = q) = [] →
      storeAfterWrites s (applyPatch Q s now).writes q = s q) ∧
    (∀ q L, Q.operations.filter (fun op => op.filePath = q) ≠ [] → s q = some L →
      storeAfterWrites s (applyPatch Q s now).writes q
        = some (applyFileOps L (Q.operations.filter (fun op => op.filePath = q))).1) := by
  have hpre : ∀ pr ∈ groupByFile Q.operations,
      ∃ L, s pr.1 = some L ∧ (applyFileOps L pr.2).2 = [] := by
    intro pr hpr
    obtain ⟨hface, hne⟩ := groupByFile_sound Q.operations pr hpr
    obtain ⟨L, hL, happ⟩ := hQ pr.1 (by rw [← hface]; exact hne)
    rw [← hface] at happ
    exact ⟨L, hL, happ⟩
  obtain ⟨herr, hfc⟩ := processGroups_clean s (groupByFile Q.operations) hpre
  have hW : (applyPatch Q s now).writes
      = (groupByFile Q.operations).map
          (fun pr => (pr.1, (applyFileOps ((s pr.1).getD []) pr.2).1)) := by
    rw [← hfc]
    simp [applyPatch, herr]
  refine ⟨by simp [applyPatch, herr], by simp [applyPatch, herr], ?_, ?_⟩
  · intro q hq
    rw [hW]
    apply storeAfterWrites_untouched
    intro w hw
    obtain ⟨pr, hpr, hwe⟩ := List.mem_map.mp hw
    obtain ⟨hface, hne⟩ := groupByFile_sound Q.operations pr hpr
    intro heq
    have hp1 : pr.1 = q := by
      rw [← hwe] at heq
      exact heq
    apply hne
    rw [hface, hp1]
    exact hq
  · intro q L hqne hsL
    rw [hW]
    have hex : ∃ op ∈ Q.operations, op.filePath = q := by
      obtain ⟨op, hop⟩ := List.exists_mem_of_ne_nil _ hqne
      have hmf := List.mem_filter.mp hop
      exact ⟨op, hmf.1, of_decide_eq_true hmf.2⟩
    have hgrp := groupByFile_mem Q.operations q hex
    have hwmem : (q, (applyFileOps ((s q).getD [])
        (Q.operations.filter (fun op => op.filePath = q))).1)
        ∈ (groupByFile Q.operations).map
            (fun pr => (pr.1, (applyFileOps ((s pr.1).getD []) pr.2).1)) :=
      List.mem_map_of_mem _ hgrp
    have hndw : (((groupByFile Q.operations).map
        (fun pr => (pr.1, (applyFileOps ((s pr.1).getD []) pr.2).1))).map Prod.fst).Nodup := by
      rw [List.map_map]
      have hcomp : (Prod.fst ∘ fun pr : String × List PatchOperation =>
          (pr.1, (applyFileOps ((s pr.1).getD []) pr.2).1)) = Prod.fst := rfl
      rw [hcomp]
      exact nodup_keys_foldl Q.operations [] (by simp)
    rw [storeAfterWrites_touched _ _ q _ hwmem hndw, hsL]
    rfl

/-- C1 (amended): for every patch whose per-file operations can be arranged
into ascending pairwise-disjoint replace operations whose recorded old text
matches the live content and whose new text has the same number of lines,
applyPatch succeeds, and applying createReversePatch over the updated
accessors succeeds and restores every file to its exact pre-patch content.
(In general the round trip fails — see the counterexample — because the
reverse patch keeps the forward coordinates, which are stale once an
operation changes a file's line count.) -/
theorem c1_reverse_roundtrip (patch : Patch) (get : Store) (now now2 : Nat)
    (h : ∀ path, patch.operations.filter (fun op => op.filePath = path) ≠ [] →
      ∃ L modL A, get path = some L ∧
        List.Perm (patch.operations.filter (fun op => op.filePath = path)) A ∧
        RepDecomp L modL A 0) :
    (applyPatch patch get now).success = true ∧
    (applyPatch (createReversePatch patch)
        (storeAfterWrites get (applyPatch patch get now).writes) now2).success = true ∧
    ∀ p, storeAfterWrites
        (storeAfterWrites get (applyPatch patch get now).writes)
        (applyPatch (createReversePatch patch)
          (storeAfterWrites get (applyPatch patch get now).writes) now2).writes p
      = get p := by
  have hQ1 : ∀ path, patch.operations.filter (fun op => op.filePath = path) ≠ [] →
      ∃ L, get path = some L ∧
        (applyFileOps L (patch.operations.filter (fun op => op.filePath = path))).2
          = [] := by
    intro path hne
    obtain ⟨L, modL, A, hL, hperm, hrd⟩ := h path hne
    exact ⟨L, hL, by rw [uniform_apply hperm hrd]⟩
  obtain ⟨hs1, he1, hu1, ht1⟩ := applyPatch_uniform patch get now hQ1
  have hrevops : (createReversePatch patch).operations
      = (patch.operations.map reverseOp).reverse := rfl
  have hrevfilter : ∀ path,
      (createReversePatch patch).operations.filter (fun op => op.filePath = path)
        = ((patch.operations.filter (fun op => op.filePath = path)).map reverseOp).reverse := by
    intro path
    rw [hrevops]
    exact filter_map_reverse path patch.operations
  have hQ2 : ∀ path,
      (createReversePatch patch).operations.filter (fun op => op.filePath = path) ≠ [] →
      ∃ L2, (storeAfterWrites get (applyPatch patch get now).writes) path = some L2 ∧
        (applyFileOps L2 ((createReversePatch patch).operations.filter
          (fun op => op.filePath = path))).2 = [] := by
    intro path hne
    rw [hrevfilter path] at hne ⊢
    have hne0 : patch.operations.filter (fun op => op.filePath = path) ≠ [] := by
      intro he
      rw [he] at hne
      simp at hne
    obtain ⟨L, modL, A, hL, hperm, hrd⟩ := h path hne0
    have hfwd := uniform_apply hperm hrd
    have hget2 : storeAfterWrites get (applyPatch patch get now).writes path
        = some modL := by
      rw [ht1 path L hne0 hL, hfwd]
    refine ⟨modL, hget2, ?_⟩
    have hpermrev : List.Perm
        (((patch.operations.filter (fun op => op.filePath = path)).map reverseOp).reverse)
        (A.map reverseOp) :=
      (List.reverse_perm _).trans (hperm.map reverseOp)
    rw [uniform_apply hpermrev (repDecomp_symm hrd)]
  obtain ⟨hs2, he2, hu2, ht2⟩ := applyPatch_uniform (createReversePatch patch)
    (storeAfterWrites get (applyPatch patch get now).writes) now2 hQ2
  refine ⟨hs1, hs2, ?_⟩
  intro p
  by_cases hp : patch.operations.filter (fun op => op.filePath = p) = []
  · have hrevempty : (createReversePatch patch).operations.filter
        (fun op => op.filePath = p) = [] := by
      rw [hrevfilter p, hp]
      rfl
    rw [hu2 p hrevempty]
    exact hu1 p hp
  · obtain ⟨L, modL, A, hL, hperm, hrd⟩ := h p hp
    have hfwd := uniform_apply hperm hrd
    have hget2 : storeAfterWrites get (applyPatch patch get now).writes p
        = some modL := by
      rw [ht1 p L hp hL, hfwd]
    have hrevne : (createReversePatch patch).operations.filter
        (fun op => op.filePath = p) ≠ [] := by
      rw [hrevfilter p]
      intro he
      apply hp
      simpa using he
    have hpermrev : List.Perm
        (((patch.operations.filter (fun op => op.filePath = p)).map reverseOp).reverse)
        (A.map reverseOp) :=
      (List.reverse_perm _).trans (hperm.map reverseOp)
    have hback := uniform_apply hpermrev (repDecomp_symm hrd)
    rw [ht2 p modL hrevne hget2, hrevfilter p, hback, hL]

/-- C1 witness: a one-line uniform replace on /f applies and round-trips
back to the original store. -/
theorem c1_reverse_roundtrip_witness :
    (applyPatch c1rpatch c1rget 0).success = true ∧
    (applyPatch (createReversePatch c1rpatch)
        (storeAfterWrites c1rget (applyPatch c1rpatch c1rget 0).writes) 0).success = true ∧
    storeAfterWrites
        (storeAfterWrites c1rget (applyPatch c1rpatch c1rget 0).writes)
        (applyPatch (createReversePatch c1rpatch)
          (storeAfterWrites c1rget (applyPatch c1rpatch c1rget 0).writes) 0).writes "/f"
      = c1rget "/f" := by
  have hyp : ∀ path, c1rpatch.operations.filter (fun op => op.filePath = path) ≠ [] →
      ∃ L modL A, c1rget path = some L ∧
        List.Perm (c1rpatch.operations.filter (fun op => op.filePath = path)) A ∧
        RepDecomp L modL A 0 := by
    intro path hne
    by_cases hp : path = "/f"
    · subst hp
      refine ⟨["a"], ["b"], [c1rop], by decide, ?_, ?_⟩
      · have hfil : c1rpatch.operations.filter (fun op => op.filePath = "/f")
            = [c1rop] := by decide
        rw [hfil]
      · exact @RepDecomp.rep ["a"] ["b"] [] 0 1 c1rop rfl rfl rfl (by decide) (by decide)
          rfl rfl (RepDecomp.nil rfl)
    · exfalso
      apply hne
      have hd : decide (c1rop.filePath = path) = false :=
        decide_eq_false (fun hh => hp hh.symm)
      show List.filter (fun op => op.filePath = path) [c1rop] = []
      rw [List.filter_cons, hd]
      rfl
  obtain ⟨h1, h2, h3⟩ := c1_reverse_roundtrip c1rpatch c1rget 0 0 hyp
  exact ⟨h1, h2, h3 "/f"⟩

/-- C4 witness: a concrete insert-free diff (replace line 2) applies back to
exactly the modified content. -/
theorem c4_diff_apply_no_insert_witness :
    (∀ op ∈ generateLinePatches "/f" ["a", "x", "b"] ["a", "y", "b"],
        op.type ≠ OpType.insert) ∧
      applyFileOps ["a", "x", "b"]
          (generateLinePatches "/f" ["a", "x", "b"] ["a", "y", "b"])
        = (["a", "y", "b"], []) :=
  ⟨by decide, c4_diff_apply_no_insert "/f" ["a", "x", "b"] ["a", "y", "b"] (by decide)⟩

end NexoVfs
